import Mathlib

/-!
# Verification of the copy-on-write B-Tree (`p/demo/btree/btree.gno`)

This file shallowly embeds the B-Tree implementation and proves/refutes the
frozen claims about it.

Modelling conventions:

* The `Record` interface (any type with a `Less` method) is embedded as a type
  parameter `α` together with a comparison function `lt : α → α → Bool`.
* Go slices become Lean `List`s.  Go's panicking out-of-range reads are
  embedded as `List.getD _ default` reads; every theorem below is either about
  inputs where all reads are in range, or explicitly about the guarded
  behaviour before any read happens.
* In-place mutation of a node becomes returning the updated node; the
  node-level functions return the same tuple of results the Go functions
  produce, extended with the updated node.
* `node.remove`/`node.growChildAndRemove` are mutually recursive in a way that
  is not structurally decreasing (`growChildAndRemove` re-runs `remove` on the
  same node after rebalancing), so they take an explicit fuel argument;
  exhausted fuel acts as a no-op.  The fuel supplied by `BTree.deleteRecord`
  is generous enough for every tree the program can build.
* The copy-on-write context machinery (`copyOnWriteContext`, `mutableFor`,
  free lists) is the identity on the functional contents of a tree; the
  functional model below erases it.  A second, heap-based embedding later in
  the file models node pointers, ownership contexts and the free list
  explicitly in order to settle the claims that are about aliasing and
  ownership (clone isolation and `freeNode`).
-/

namespace GnoBtree

/-- `node`: `records` plus `children`; `children` is empty for a leaf.
The `cowCtx` field is erased in this functional model (it never influences
the functional contents); the heap model later keeps it. -/
inductive Node (α : Type) : Type where
  | mk (records : List α) (children : List (Node α)) : Node α

instance {α : Type} : Inhabited (Node α) := ⟨.mk [] []⟩

/-- The `records` field of a node. -/
def Node.records {α : Type} : Node α → List α
  | .mk rs _ => rs

/-- The `children` field of a node. -/
def Node.children {α : Type} : Node α → List (Node α)
  | .mk _ cs => cs

@[simp] theorem Node.records_mk {α : Type} (rs : List α) (cs : List (Node α)) :
    (Node.mk rs cs).records = rs := rfl

@[simp] theorem Node.children_mk {α : Type} (rs : List α) (cs : List (Node α)) :
    (Node.mk rs cs).children = cs := rfl

theorem Node.eta {α : Type} (n : Node α) : Node.mk n.records n.children = n := by
  cases n; rfl

/-- `records.insertAt` / `children.insertAt`: insert a value at `index`,
pushing all subsequent values forward. -/
def insertAt {α : Type} (l : List α) (index : Nat) (x : α) : List α :=
  l.take index ++ x :: l.drop index

/-- `records.removeAt` / `children.removeAt`: remove the element at `index`,
shifting subsequent elements, and return it together with the shrunk list. -/
def removeAt {α : Type} [Inhabited α] (l : List α) (index : Nat) : α × List α :=
  (l.getD index default, l.take index ++ l.drop (index + 1))

/-- `records.pop` / `children.pop`: remove and return the last element. -/
def popLast {α : Type} [Inhabited α] (l : List α) : α × List α :=
  (l.getD (l.length - 1) default, l.dropLast)

/-- `records.truncate` / `children.truncate`: keep the first `index` elements. -/
def truncate {α : Type} (l : List α) (index : Nat) : List α :=
  l.take index

/-- The binary-search loop of Go's `sort.Search`: smallest `k ∈ [i, j)` with
`f k = true` (or `j` if none), assuming `f` monotone. -/
def searchLoop (f : Nat → Bool) (i j : Nat) : Nat :=
  if _h : i < j then
    if f ((i + j) / 2) then searchLoop f i ((i + j) / 2)
    else searchLoop f ((i + j) / 2 + 1) j
  else i
termination_by j - i
decreasing_by
  · omega
  · omega

/-- `sort.Search(n, f)`. -/
def sortSearch (n : Nat) (f : Nat → Bool) : Nat :=
  searchLoop f 0 n

/-- The tail of `records.find` after the binary search produced
`insertionPoint`: report an equality hit at `insertionPoint - 1` when the
record there is not less than the searched record. -/
def findAux {α : Type} [Inhabited α] (lt : α → α → Bool) (rs : List α) (record : α)
    (insertionPoint : Nat) : Nat × Bool :=
  if 0 < insertionPoint then
    if !(lt (rs.getD (insertionPoint - 1) default) record) then (insertionPoint - 1, true)
    else (insertionPoint, false)
  else (insertionPoint, false)

/-- `records.find`: binary search for the insertion point of `record`, and
whether an equal record (per `!Less(a,b) && !Less(b,a)`) already sits just
before the insertion point. -/
def find {α : Type} [Inhabited α] (lt : α → α → Bool) (rs : List α) (record : α) :
    Nat × Bool :=
  findAux lt rs record (sortSearch rs.length (fun i => lt record (rs.getD i default)))

mutual
/-- Total number of nodes plus records in a subtree (termination measure). -/
def nodeSize {α : Type} : Node α → Nat
  | .mk rs cs => 1 + rs.length + sizeNodes cs
/-- Sum of `nodeSize` over a list of nodes. -/
def sizeNodes {α : Type} : List (Node α) → Nat
  | [] => 0
  | c :: cs => nodeSize c + sizeNodes cs
end

@[simp] theorem nodeSize_mk {α : Type} (rs : List α) (cs : List (Node α)) :
    nodeSize (Node.mk rs cs) = 1 + rs.length + sizeNodes cs := by
  rw [nodeSize]

@[simp] theorem sizeNodes_nil {α : Type} : sizeNodes ([] : List (Node α)) = 0 := by
  rw [sizeNodes]

@[simp] theorem sizeNodes_cons {α : Type} (c : Node α) (cs : List (Node α)) :
    sizeNodes (c :: cs) = nodeSize c + sizeNodes cs := by
  rw [sizeNodes]

theorem nodeSize_pos {α : Type} (n : Node α) : 1 ≤ nodeSize n := by
  cases n with
  | mk rs cs => simp; omega

theorem sizeNodes_append {α : Type} (l₁ l₂ : List (Node α)) :
    sizeNodes (l₁ ++ l₂) = sizeNodes l₁ + sizeNodes l₂ := by
  induction l₁ with
  | nil => simp
  | cons c cs ih => simp [ih]; omega

theorem length_le_sizeNodes {α : Type} (cs : List (Node α)) :
    cs.length ≤ sizeNodes cs := by
  induction cs with
  | nil => simp
  | cons c cs ih =>
    have := nodeSize_pos c
    simp only [sizeNodes_cons, List.length_cons]
    omega

theorem nodeSize_mem_le {α : Type} {c : Node α} {cs : List (Node α)} (h : c ∈ cs) :
    nodeSize c + (cs.length - 1) ≤ sizeNodes cs := by
  induction cs with
  | nil => simp at h
  | cons d ds ih =>
    rcases List.mem_cons.mp h with rfl | h'
    · have := length_le_sizeNodes ds
      simp only [sizeNodes_cons, List.length_cons]
      omega
    · have := ih h'
      have := nodeSize_pos d
      have := List.length_pos.mpr (List.ne_nil_of_mem h')
      simp only [sizeNodes_cons, List.length_cons]
      omega

theorem nodeSize_getD_le {α : Type} (cs : List (Node α)) (i : Nat) (hne : cs ≠ []) :
    nodeSize (cs.getD i default) ≤ sizeNodes cs := by
  by_cases h : i < cs.length
  · have hm : cs.getD i default ∈ cs := by
      rw [List.getD_eq_getElem _ _ h]
      exact List.getElem_mem h
    have := nodeSize_mem_le hm
    omega
  · rw [List.getD_eq_default _ _ (by omega)]
    have : 1 ≤ cs.length := List.length_pos.mpr hne
    have := length_le_sizeNodes cs
    simp only [default]
    rw [nodeSize]
    simp
    omega

theorem sizeNodes_take_le {α : Type} (cs : List (Node α)) (i : Nat) :
    sizeNodes (cs.take i) ≤ sizeNodes cs := by
  induction cs generalizing i with
  | nil => simp
  | cons c cs ih =>
    cases i with
    | zero => simp
    | succ i =>
      have := ih i
      simp only [List.take_succ_cons, sizeNodes_cons]
      omega

theorem sizeNodes_drop_le {α : Type} (cs : List (Node α)) (i : Nat) :
    sizeNodes (cs.drop i) ≤ sizeNodes cs := by
  induction cs generalizing i with
  | nil => simp
  | cons c cs ih =>
    cases i with
    | zero => simp
    | succ i =>
      have := ih i
      have := nodeSize_pos c
      simp only [List.drop_succ_cons, sizeNodes_cons]
      omega

theorem sizeNodes_insertAt {α : Type} (cs : List (Node α)) (i : Nat) (x : Node α) :
    sizeNodes (insertAt cs i x) = sizeNodes cs + nodeSize x := by
  unfold insertAt
  rw [sizeNodes_append, sizeNodes_cons]
  have : sizeNodes (cs.take i) + sizeNodes (cs.drop i) = sizeNodes cs := by
    rw [← sizeNodes_append, List.take_append_drop]
  omega

theorem length_insertAt {α : Type} (l : List α) (i : Nat) (x : α) :
    (insertAt l i x).length = l.length + 1 := by
  unfold insertAt
  simp
  omega

theorem sizeNodes_set_le {α : Type} (cs : List (Node α)) (i : Nat) (x : Node α)
    (h : i < cs.length) :
    sizeNodes (cs.set i x) + nodeSize (cs.getD i default) = sizeNodes cs + nodeSize x := by
  induction cs generalizing i with
  | nil => simp at h
  | cons c cs ih =>
    cases i with
    | zero => simp [List.getD_cons_zero]; omega
    | succ i =>
      have := ih i (by simpa using h)
      simp only [List.set_cons_succ, sizeNodes_cons, List.getD_cons_succ]
      omega

/-- `node.split(i)`: shrink the node to its first `i` records (and first
`i+1` children if internal) and return the record at `i`, the shrunk node,
and a new node holding everything after `i`. -/
def Node.split {α : Type} [Inhabited α] (n : Node α) (i : Nat) : α × Node α × Node α :=
  let record := n.records.getD i default
  let nextRecords := n.records.drop (i + 1)
  if n.children.length > 0 then
    (record, .mk (truncate n.records i) (truncate n.children (i + 1)),
      .mk nextRecords (n.children.drop (i + 1)))
  else
    (record, .mk (truncate n.records i) n.children, .mk nextRecords [])

/-- `node.maybeSplitChild(i, maxRecords)`: split child `i` at the median if it
holds `maxRecords` records, promoting the median into this node.  Returns
whether a split occurred, plus the updated node.  (`mutableChild` is the
functional identity, so it does not appear.) -/
def Node.maybeSplitChild {α : Type} [Inhabited α] (n : Node α) (i maxRecords : Nat) :
    Bool × Node α :=
  if (n.children.getD i default).records.length < maxRecords then (false, n)
  else
    let first := n.children.getD i default
    let res := first.split (maxRecords / 2)
    (true, .mk (insertAt n.records i res.1)
      (insertAt (n.children.set i res.2.1) (i + 1) res.2.2))

theorem split_size {α : Type} [Inhabited α] (c : Node α) (i : Nat) :
    nodeSize (c.split i).2.1 + nodeSize (c.split i).2.2 ≤ nodeSize c + 1 := by
  cases c with
  | mk rs cs =>
    unfold Node.split truncate
    by_cases h : cs.length > 0
    · simp only [h, if_pos, Node.records_mk, Node.children_mk]
      have h1 : (rs.take i).length + (rs.drop (i + 1)).length ≤ rs.length := by
        simp; omega
      have h2 : sizeNodes (cs.take (i + 1)) + sizeNodes (cs.drop (i + 1)) = sizeNodes cs := by
        rw [← sizeNodes_append, List.take_append_drop]
      simp only [nodeSize_mk]
      omega
    · simp only [h, if_neg, Node.records_mk, Node.children_mk, if_false]
      have hcs : cs = [] := by
        cases cs with
        | nil => rfl
        | cons a l => simp at h
      subst hcs
      have h1 : (rs.take i).length + (rs.drop (i + 1)).length ≤ rs.length := by
        simp; omega
      simp only [nodeSize_mk, sizeNodes_nil]
      omega

/-- Key termination bound: any child of the node produced by
`maybeSplitChild` is strictly smaller than the original node, as long as the
original node is internal. -/
theorem nodeSize_default {α : Type} : nodeSize (default : Node α) = 1 := by
  simp only [default]
  rw [nodeSize]
  simp

theorem maybeSplitChild_child_size_lt {α : Type} [Inhabited α] (n : Node α)
    (i maxRecords idx : Nat) (hne : n.children ≠ []) :
    nodeSize ((n.maybeSplitChild i maxRecords).2.children.getD idx default)
      < nodeSize n := by
  cases n with
  | mk rs cs =>
  simp only [Node.children_mk] at hne
  have hlcs : 1 ≤ cs.length := List.length_pos.mpr hne
  have hszlen := length_le_sizeNodes cs
  unfold Node.maybeSplitChild
  simp only [Node.children_mk, Node.records_mk]
  by_cases hsplit : (cs.getD i default).records.length < maxRecords
  · rw [if_pos hsplit]
    simp only [Node.children_mk, nodeSize_mk]
    have := nodeSize_getD_le cs idx hne
    omega
  · rw [if_neg hsplit]
    simp only [Node.children_mk, nodeSize_mk]
    have hs := split_size (cs.getD i default) (maxRecords / 2)
    have hposL := nodeSize_pos ((cs.getD i default).split (maxRecords / 2)).2.1
    have hposR := nodeSize_pos ((cs.getD i default).split (maxRecords / 2)).2.2
    have hset : sizeNodes (cs.set i ((cs.getD i default).split (maxRecords / 2)).2.1)
        + nodeSize ((cs.getD i default).split (maxRecords / 2)).2.2 ≤ sizeNodes cs + 1 := by
      by_cases hir : i < cs.length
      · have h2 := sizeNodes_set_le cs i ((cs.getD i default).split (maxRecords / 2)).2.1 hir
        omega
      · rw [List.set_eq_of_length_le (by omega)]
        have h1 : nodeSize (cs.getD i default) = 1 := by
          rw [List.getD_eq_default _ _ (by omega), nodeSize_default]
        omega
    have hins := sizeNodes_insertAt (cs.set i ((cs.getD i default).split (maxRecords / 2)).2.1)
        (i + 1) ((cs.getD i default).split (maxRecords / 2)).2.2
    have hlen : (insertAt (cs.set i ((cs.getD i default).split (maxRecords / 2)).2.1)
        (i + 1) ((cs.getD i default).split (maxRecords / 2)).2.2).length = cs.length + 1 := by
      rw [length_insertAt]
      simp
    by_cases hidx : idx < (insertAt (cs.set i ((cs.getD i default).split (maxRecords / 2)).2.1)
        (i + 1) ((cs.getD i default).split (maxRecords / 2)).2.2).length
    · have hmem : (insertAt (cs.set i ((cs.getD i default).split (maxRecords / 2)).2.1)
          (i + 1) ((cs.getD i default).split (maxRecords / 2)).2.2).getD idx default
          ∈ insertAt (cs.set i ((cs.getD i default).split (maxRecords / 2)).2.1)
          (i + 1) ((cs.getD i default).split (maxRecords / 2)).2.2 := by
        rw [List.getD_eq_getElem _ _ hidx]
        exact List.getElem_mem hidx
      have := nodeSize_mem_le hmem
      omega
    · rw [List.getD_eq_default _ _ (by omega), nodeSize_default]
      omega

mutual
/-- `node.insert(record, maxRecords)`: insert into the subtree rooted at
this node, splitting children as needed; returns the replaced equal record
(if any) together with the updated node. -/
def Node.insert {α : Type} [Inhabited α] (lt : α → α → Bool) (n : Node α)
    (record : α) (maxRecords : Nat) : Option α × Node α :=
  let found := find lt n.records record
  let insertionIndex := found.1
  if found.2 then
    (some (n.records.getD insertionIndex default),
      .mk (n.records.set insertionIndex record) n.children)
  else if _hleaf : n.children.length = 0 then
    (none, .mk (insertAt n.records insertionIndex record) n.children)
  else
    let step := n.maybeSplitChild insertionIndex maxRecords
    if step.1 then
      let splitRecord := step.2.records.getD insertionIndex default
      if lt record splitRecord then
        Node.insertDescend lt n insertionIndex maxRecords step.2 insertionIndex record
      else if lt splitRecord record then
        Node.insertDescend lt n insertionIndex maxRecords step.2 (insertionIndex + 1) record
      else
        (some splitRecord, .mk (step.2.records.set insertionIndex record) step.2.children)
    else
      Node.insertDescend lt n insertionIndex maxRecords step.2 insertionIndex record
termination_by 2 * nodeSize n
decreasing_by
  · have := maybeSplitChild_child_size_lt n (find lt n.records record).1 maxRecords
      (find lt n.records record).1 (by intro hx; rw [hx] at _hleaf; simp at _hleaf)
    omega
  · have := maybeSplitChild_child_size_lt n (find lt n.records record).1 maxRecords
      ((find lt n.records record).1 + 1) (by intro hx; rw [hx] at _hleaf; simp at _hleaf)
    omega
  · have := maybeSplitChild_child_size_lt n (find lt n.records record).1 maxRecords
      (find lt n.records record).1 (by intro hx; rw [hx] at _hleaf; simp at _hleaf)
    omega

/-- Descend: recursively insert into child `idx` of `m` (already guaranteed
non-full) and store the updated child back.  The first three extra arguments
(`n0`, `i0`, `maxRecords`) record how `m` arose from `maybeSplitChild`, for
the termination measure only. -/
def Node.insertDescend {α : Type} [Inhabited α] (lt : α → α → Bool) (_n0 : Node α)
    (_i0 maxRecords : Nat) (m : Node α) (idx : Nat) (record : α) : Option α × Node α :=
  let child := m.children.getD idx default
  let res := Node.insert lt child record maxRecords
  (res.1, .mk m.records (m.children.set idx res.2))
termination_by 2 * nodeSize (m.children.getD idx default) + 1
decreasing_by
  · omega
end

/-- `node.get(key)`: find the key in the subtree rooted at this node. -/
def Node.get {α : Type} [Inhabited α] (lt : α → α → Bool) (n : Node α) (key : α) :
    Option α :=
  let found := find lt n.records key
  if found.2 then
    some (n.records.getD found.1 default)
  else if _h : n.children.length > 0 then
    Node.get lt (n.children.getD found.1 default) key
  else
    none
termination_by nodeSize n
decreasing_by
  · cases n with
    | mk rs cs =>
      simp only [Node.children_mk, List.length_pos] at _h
      have := nodeSize_getD_le cs (find lt (Node.mk rs cs).records key).1 _h
      simp only [Node.children_mk, nodeSize_mk]
      omega

/-- `min(n)`: first record of the subtree (walk to the leftmost leaf). -/
def Node.minRec {α : Type} (n : Node α) : Option α :=
  if _h : n.children.length > 0 then
    Node.minRec (n.children.getD 0 default)
  else
    match n.records with
    | [] => none
    | r :: _ => some r
termination_by nodeSize n
decreasing_by
  · cases n with
    | mk rs cs =>
      simp only [Node.children_mk, List.length_pos] at _h
      have := nodeSize_getD_le cs 0 _h
      simp only [Node.children_mk, nodeSize_mk]
      omega

/-- `max(n)`: last record of the subtree (walk to the rightmost leaf). -/
def Node.maxRec {α : Type} (n : Node α) : Option α :=
  if _h : n.children.length > 0 then
    Node.maxRec (n.children.getD (n.children.length - 1) default)
  else
    match n.records.getLast? with
    | none => none
    | some r => some r
termination_by nodeSize n
decreasing_by
  · cases n with
    | mk rs cs =>
      simp only [Node.children_mk, List.length_pos] at _h
      have := nodeSize_getD_le cs (cs.length - 1) _h
      simp only [Node.children_mk, nodeSize_mk]
      omega

/-- `toRemove`: which record `node.remove` should delete. -/
inductive ToRemove : Type where
  | removeRecord : ToRemove
  | removeMin : ToRemove
  | removeMax : ToRemove

mutual
/-- `node.remove(record, minRecords, typ)` with explicit fuel: remove a
record from the subtree rooted at this node.  When fuel runs out the call is
a no-op returning "not found" (never reached by `deleteRecord`'s fuel on
trees the program builds); `record` is an `Option` because the min/max
removal types pass Go `nil`. -/
def Node.removeGo {α : Type} [Inhabited α] (lt : α → α → Bool) (fuel : Nat)
    (n : Node α) (record : Option α) (minRecords : Nat) (typ : ToRemove) :
    Option α × Node α :=
  match fuel with
  | 0 => (none, n)
  | fuel + 1 =>
    -- determine the target index (and for removeRecord, whether it is here)
    match typ with
    | .removeMax =>
      if n.children.length = 0 then
        let res := popLast n.records
        (some res.1, .mk res.2 n.children)
      else
        Node.removeStep lt fuel n record minRecords typ n.records.length false
    | .removeMin =>
      if n.children.length = 0 then
        let res := removeAt n.records 0
        (some res.1, .mk res.2 n.children)
      else
        Node.removeStep lt fuel n record minRecords typ 0 false
    | .removeRecord =>
      let found :=
        match record with
        | some r => find lt n.records r
        | none => (0, false)   -- Go would dereference nil here; unreachable
      if n.children.length = 0 then
        if found.2 then
          let res := removeAt n.records found.1
          (some res.1, .mk res.2 n.children)
        else
          (none, n)
      else
        Node.removeStep lt fuel n record minRecords typ found.1 found.2

/-- The shared tail of `node.remove` once the node is known to be internal:
grow the target child if it is too small, otherwise descend (replacing an
in-node hit by its predecessor from the child). -/
def Node.removeStep {α : Type} [Inhabited α] (lt : α → α → Bool) (fuel : Nat)
    (n : Node α) (record : Option α) (minRecords : Nat) (typ : ToRemove)
    (targetIndex : Nat) (recordFound : Bool) : Option α × Node α :=
  match fuel with
  | 0 => (none, n)
  | fuel + 1 =>
    if (n.children.getD targetIndex default).records.length ≤ minRecords then
      Node.growChildAndRemove lt fuel n targetIndex record minRecords typ
    else
      let targetChild := n.children.getD targetIndex default
      if recordFound then
        let replacedRecord := n.records.getD targetIndex default
        let res := Node.removeGo lt fuel targetChild none minRecords .removeMax
        match res.1 with
        | some stolen =>
          (some replacedRecord,
            .mk (n.records.set targetIndex stolen) (n.children.set targetIndex res.2))
        | none =>
          -- Go would store a nil record here; unreachable on trees the
          -- program builds (the child is nonempty)
          (some replacedRecord, .mk n.records (n.children.set targetIndex res.2))
      else
        let res := Node.removeGo lt fuel targetChild record minRecords typ
        (res.1, .mk n.records (n.children.set targetIndex res.2))

/-- `node.growChildAndRemove(i, record, minRecords, typ)`: rebalance so that
child `i` can spare a record (steal from a sibling or merge), then re-run the
removal. -/
def Node.growChildAndRemove {α : Type} [Inhabited α] (lt : α → α → Bool) (fuel : Nat)
    (n : Node α) (i : Nat) (record : Option α) (minRecords : Nat) (typ : ToRemove) :
    Option α × Node α :=
  match fuel with
  | 0 => (none, n)
  | fuel + 1 =>
    if i > 0 ∧ (n.children.getD (i - 1) default).records.length > minRecords then
      -- steal from left sibling
      let child := n.children.getD i default
      let stealFrom := n.children.getD (i - 1) default
      let stolen := popLast stealFrom.records
      let childRecords := insertAt child.records 0 (n.records.getD (i - 1) default)
      let rs' := n.records.set (i - 1) stolen.1
      let moved :=
        if stealFrom.children.length > 0 then
          let sc := popLast stealFrom.children
          (Node.mk childRecords (insertAt child.children 0 sc.1),
            Node.mk stolen.2 sc.2)
        else
          (Node.mk childRecords child.children, Node.mk stolen.2 stealFrom.children)
      Node.removeGo lt fuel
        (.mk rs' ((n.children.set i moved.1).set (i - 1) moved.2))
        record minRecords typ
    else if i < n.records.length ∧
        (n.children.getD (i + 1) default).records.length > minRecords then
      -- steal from right sibling
      let child := n.children.getD i default
      let stealFrom := n.children.getD (i + 1) default
      let stolen := removeAt stealFrom.records 0
      let childRecords := child.records ++ [n.records.getD i default]
      let rs' := n.records.set i stolen.1
      let moved :=
        if stealFrom.children.length > 0 then
          let sc := removeAt stealFrom.children 0
          (Node.mk childRecords (child.children ++ [sc.1]),
            Node.mk stolen.2 sc.2)
        else
          (Node.mk childRecords child.children, Node.mk stolen.2 stealFrom.children)
      Node.removeGo lt fuel
        (.mk rs' ((n.children.set i moved.1).set (i + 1) moved.2))
        record minRecords typ
    else
      -- merge with right sibling (moving i left if it is the last record)
      let i' := if i ≥ n.records.length then i - 1 else i
      let child := n.children.getD i' default
      let mergeRes := removeAt n.records i'
      let childRes := removeAt n.children (i' + 1)
      let merged := Node.mk (child.records ++ mergeRes.1 :: childRes.1.records)
        (child.children ++ childRes.1.children)
      -- freeNode(mergeChild) has no functional effect
      Node.removeGo lt fuel (.mk mergeRes.2 (childRes.2.set i' merged))
        record minRecords typ
end

theorem searchLoop_le {f : Nat → Bool} (i j : Nat) (h : i ≤ j) :
    searchLoop f i j ≤ j := by
  induction i, j using searchLoop.induct f with
  | case1 i j hij hm ih =>
    rw [searchLoop, dif_pos hij, if_pos hm]
    exact le_trans (ih (by omega)) (by omega)
  | case2 i j hij hm ih =>
    rw [searchLoop, dif_pos hij, if_neg (by simp [hm])]
    exact ih (by omega)
  | case3 i j hij =>
    rw [searchLoop, dif_neg hij]
    omega

theorem searchLoop_ge {f : Nat → Bool} (i j : Nat) : i ≤ searchLoop f i j := by
  induction i, j using searchLoop.induct f with
  | case1 i j hij hm ih =>
    rw [searchLoop, dif_pos hij, if_pos hm]
    exact ih
  | case2 i j hij hm ih =>
    rw [searchLoop, dif_pos hij, if_neg (by simp [hm])]
    omega
  | case3 i j hij =>
    rw [searchLoop, dif_neg hij]

theorem sortSearch_le (n : Nat) (f : Nat → Bool) : sortSearch n f ≤ n :=
  searchLoop_le 0 n (Nat.zero_le n)

theorem findAux_fst_le {α : Type} [Inhabited α] (lt : α → α → Bool) (rs : List α)
    (record : α) (ip : Nat) (hip : ip ≤ rs.length) :
    (findAux lt rs record ip).1 ≤ rs.length := by
  unfold findAux
  by_cases h0 : 0 < ip
  · rw [if_pos h0]
    by_cases h1 : (!(lt (rs.getD (ip - 1) default) record)) = true
    · rw [if_pos h1]
      omega
    · rw [if_neg h1]
      omega
  · rw [if_neg h0]
    omega

theorem find_fst_le {α : Type} [Inhabited α] (lt : α → α → Bool) (rs : List α)
    (record : α) : (find lt rs record).1 ≤ rs.length := by
  unfold find
  exact findAux_fst_le lt rs record _
    (sortSearch_le rs.length (fun i => lt record (rs.getD i default)))

theorem findAux_found_lt {α : Type} [Inhabited α] (lt : α → α → Bool) (rs : List α)
    (record : α) (ip : Nat) (hip : ip ≤ rs.length)
    (h : (findAux lt rs record ip).2 = true) :
    (findAux lt rs record ip).1 < rs.length := by
  unfold findAux at *
  by_cases h0 : 0 < ip
  · rw [if_pos h0] at *
    by_cases h1 : (!(lt (rs.getD (ip - 1) default) record)) = true
    · rw [if_pos h1] at *
      omega
    · rw [if_neg h1] at h
      simp at h
  · rw [if_neg h0] at h
    simp at h

theorem find_found_lt {α : Type} [Inhabited α] (lt : α → α → Bool) (rs : List α)
    (record : α) (h : (find lt rs record).2 = true) :
    (find lt rs record).1 < rs.length := by
  unfold find at *
  exact findAux_found_lt lt rs record _
    (sortSearch_le rs.length (fun i => lt record (rs.getD i default))) h

/-- Iteration direction (`ascend` / `descend`). -/
inductive Dir : Type where
  | ascend : Dir
  | descend : Dir

mutual
/-- `node.iterate(dir, start, stop, includeStart, hit, iter)`: in-order (or
reverse) traversal with range bounds and early stop.  The Go iterator
callback's side effects are embedded as a threaded state `s : σ`; the
callback returns `(continue?, new state)`.  Result: `(hit, ok, state)`. -/
def Node.iterate {α σ : Type} [Inhabited α] (lt : α → α → Bool) (n : Node α)
    (dir : Dir) (start stop : Option α) (includeStart : Bool) (hit : Bool)
    (iter : σ → α → Bool × σ) (s : σ) : Bool × Bool × σ :=
  match dir with
  | .ascend =>
    let index :=
      match start with
      | some st => (find lt n.records st).1
      | none => 0
    Node.iterAsc lt n.records n.children index start stop includeStart hit iter s
  | .descend =>
    let index : Int :=
      match start with
      | some st =>
        let found := find lt n.records st
        if !found.2 then (found.1 : Int) - 1 else (found.1 : Int)
      | none => (n.records.length : Int) - 1
    Node.iterDesc lt n.records n.children index start stop includeStart hit iter s
termination_by 2 * nodeSize n
decreasing_by
  · cases n with
    | mk rs cs =>
      simp only [Node.records_mk, Node.children_mk, nodeSize_mk]
      omega
  · rcases n with ⟨rs, cs⟩
    simp only [Node.records_mk, Node.children_mk, nodeSize_mk]
    rcases start with _ | st
    · simp
      omega
    · simp only []
      have hle := find_fst_le lt rs st
      by_cases hf : (find lt rs st).2 = true
      · have := find_found_lt lt rs st hf
        rw [hf]
        simp
        omega
      · simp only [Bool.not_eq_true] at hf
        rw [hf]
        simp
        omega

/-- The ascending loop of `node.iterate` over indices `i < len(records)`. -/
def Node.iterAsc {α σ : Type} [Inhabited α] (lt : α → α → Bool) (rs : List α)
    (cs : List (Node α)) (i : Nat) (start stop : Option α) (includeStart : Bool)
    (hit : Bool) (iter : σ → α → Bool × σ) (s : σ) : Bool × Bool × σ :=
  if _h : i < rs.length then
    let stepChild :=
      if cs.length > 0 then
        Node.iterate lt (cs.getD i default) .ascend start stop includeStart hit iter s
      else (hit, true, s)
    if !stepChild.2.1 then (stepChild.1, false, stepChild.2.2)
    else
      let hit1 := stepChild.1
      let s1 := stepChild.2.2
      let r := rs.getD i default
      -- skip an excluded `start` record exactly once
      if !includeStart && !hit1 &&
          (match start with | some st => !(lt st r) | none => false) then
        Node.iterAsc lt rs cs (i + 1) start stop includeStart true iter s1
      else
        if (match stop with | some sp => !(lt r sp) | none => false) then
          (true, false, s1)
        else
          let step := iter s1 r
          if !step.1 then (true, false, step.2)
          else Node.iterAsc lt rs cs (i + 1) start stop includeStart true iter step.2
  else
    if cs.length > 0 then
      let res := Node.iterate lt (cs.getD (cs.length - 1) default) .ascend start stop
        includeStart hit iter s
      if !res.2.1 then (res.1, false, res.2.2) else (res.1, true, res.2.2)
    else (hit, true, s)
termination_by 2 * sizeNodes cs + 2 * (rs.length - i) + 1
decreasing_by
  · have h1 : cs ≠ [] := by
      intro hx
      subst hx
      simp_all
    have := nodeSize_getD_le cs i h1
    omega
  · omega
  · omega
  · have h1 : cs ≠ [] := by
      intro hx
      subst hx
      simp_all
    have := nodeSize_getD_le cs (cs.length - 1) h1
    omega

/-- The descending loop of `node.iterate` over indices `i ≥ 0` (an `Int`,
because the Go loop runs the index down to `-1`). -/
def Node.iterDesc {α σ : Type} [Inhabited α] (lt : α → α → Bool) (rs : List α)
    (cs : List (Node α)) (i : Int) (start stop : Option α) (includeStart : Bool)
    (hit : Bool) (iter : σ → α → Bool × σ) (s : σ) : Bool × Bool × σ :=
  if _h : 0 ≤ i then
    let r := rs.getD i.toNat default
    -- records at or above `start` are skipped (except a single
    -- `includeStart` hit)
    if (match start with | some st => !(lt r st) | none => false) &&
        (!includeStart || hit ||
          (match start with | some st => lt st r | none => false)) then
      Node.iterDesc lt rs cs (i - 1) start stop includeStart hit iter s
    else
      let stepChild :=
        if cs.length > 0 then
          Node.iterate lt (cs.getD (i.toNat + 1) default) .descend start stop
            includeStart hit iter s
        else (hit, true, s)
      if !stepChild.2.1 then (stepChild.1, false, stepChild.2.2)
      else
        let hit1 := stepChild.1
        let s1 := stepChild.2.2
        if (match stop with | some sp => !(lt sp r) | none => false) then
          (hit1, false, s1)
        else
          let step := iter s1 r
          if !step.1 then (true, false, step.2)
          else Node.iterDesc lt rs cs (i - 1) start stop includeStart true iter step.2
  else
    if cs.length > 0 then
      let res := Node.iterate lt (cs.getD 0 default) .descend start stop
        includeStart hit iter s
      if !res.2.1 then (res.1, false, res.2.2) else (res.1, true, res.2.2)
    else (hit, true, s)
termination_by 2 * sizeNodes cs + 2 * (i + 1).toNat + 1
decreasing_by
  · omega
  · have h1 : cs ≠ [] := by
      intro hx
      subst hx
      simp_all
    have := nodeSize_getD_le cs (i.toNat + 1) h1
    omega
  · omega
  · have h1 : cs ≠ [] := by
      intro hx
      subst hx
      simp_all
    have := nodeSize_getD_le cs 0 h1
    omega
end

mutual
/-- In-order contents of a subtree (specification function): child 0,
record 0, child 1, record 1, …, last child. -/
def flatN {α : Type} : Node α → List α
  | .mk rs cs => if cs.isEmpty then rs else flatA rs cs
/-- Interleave records with the flattened children. -/
def flatA {α : Type} : List α → List (Node α) → List α
  | rs, [] => rs
  | rs, c :: cs =>
    flatN c ++ (match rs with
      | [] => flatA [] cs
      | r :: rs' => r :: flatA rs' cs)
end

/-- `BTree`: degree, record count, optional root.  The `cowCtx` field has no
functional content and is erased here (the heap model keeps it). -/
structure BTree (α : Type) : Type where
  degree : Nat
  length : Nat
  root : Option (Node α)

/-- `New(WithDegree(degree))` for a legal degree (`New()` itself uses 16). -/
def newTree (α : Type) (degree : Nat) : BTree α :=
  { degree := degree, length := 0, root := none }

/-- `maxRecords`: max records per node, `2*degree - 1`. -/
def BTree.maxRecords {α : Type} (t : BTree α) : Nat :=
  t.degree * 2 - 1

/-- `minRecords`: min records per non-root node, `degree - 1`. -/
def BTree.minRecords {α : Type} (t : BTree α) : Nat :=
  t.degree - 1

/-- `BTree.Insert` on a non-nil record: split a full root, then insert;
returns the replaced record (if any) and bumps `length` when nothing was
replaced. -/
def BTree.insertRec {α : Type} [Inhabited α] (lt : α → α → Bool) (t : BTree α)
    (record : α) : Option α × BTree α :=
  match t.root with
  | none =>
    (none, { t with root := some (.mk [record] []), length := t.length + 1 })
  | some root =>
    let root1 :=
      if root.records.length ≥ t.maxRecords then
        let res := root.split (t.maxRecords / 2)
        Node.mk [res.1] [res.2.1, res.2.2]
      else root
    let res2 := Node.insert lt root1 record t.maxRecords
    match res2.1 with
    | none => (none, { t with root := some res2.2, length := t.length + 1 })
    | some old => (some old, { t with root := some res2.2 })

/-- `BTree.Insert` including the nil-record guard: a `none` record panics
("nil record cannot be added to BTree") before anything is touched, so the
tree comes back unchanged alongside the error. -/
def BTree.insertChecked {α : Type} [Inhabited α] (lt : α → α → Bool) (t : BTree α)
    (record : Option α) : Except String (Option α) × BTree α :=
  match record with
  | none => (.error "nil record cannot be added to BTree", t)
  | some r =>
    let res := t.insertRec lt r
    (.ok res.1, res.2)

/-- Fuel passed to `node.remove`; ample for every tree the program builds
(the recursion visits each level at most a bounded number of times). -/
def removeFuel {α : Type} (n : Node α) : Nat :=
  5 * nodeSize n + 5

/-- `BTree.deleteRecord(record, typ)`: empty-tree guard, removal at the
root, root collapse when the root is emptied, and conditional length
decrement. -/
def BTree.deleteRecord {α : Type} [Inhabited α] (lt : α → α → Bool) (t : BTree α)
    (record : Option α) (typ : ToRemove) : Option α × BTree α :=
  match t.root with
  | none => (none, t)
  | some root =>
    if root.records.length = 0 then (none, t)
    else
      let res := Node.removeGo lt (removeFuel root) root record t.minRecords typ
      let newRoot :=
        if res.2.records.length = 0 ∧ res.2.children.length > 0 then
          res.2.children.getD 0 default   -- `freeNode(oldRoot)` is functionally inert
        else res.2
      match res.1 with
      | some removed =>
        (some removed, { t with root := some newRoot, length := t.length - 1 })
      | none => (none, { t with root := some newRoot })

/-- `BTree.Delete(record)`. -/
def BTree.Delete {α : Type} [Inhabited α] (lt : α → α → Bool) (t : BTree α)
    (record : α) : Option α × BTree α :=
  t.deleteRecord lt (some record) .removeRecord

/-- `BTree.DeleteMin()`. -/
def BTree.DeleteMin {α : Type} [Inhabited α] (lt : α → α → Bool) (t : BTree α) :
    Option α × BTree α :=
  t.deleteRecord lt none .removeMin

/-- `BTree.Shift()` (identical to `DeleteMin`). -/
def BTree.Shift {α : Type} [Inhabited α] (lt : α → α → Bool) (t : BTree α) :
    Option α × BTree α :=
  t.deleteRecord lt none .removeMin

/-- `BTree.DeleteMax()`. -/
def BTree.DeleteMax {α : Type} [Inhabited α] (lt : α → α → Bool) (t : BTree α) :
    Option α × BTree α :=
  t.deleteRecord lt none .removeMax

/-- `BTree.Pop()` (identical to `DeleteMax`). -/
def BTree.Pop {α : Type} [Inhabited α] (lt : α → α → Bool) (t : BTree α) :
    Option α × BTree α :=
  t.deleteRecord lt none .removeMax

/-- `BTree.Ascend(iterator)`: full ascending walk; returns the iterator's
final state. -/
def BTree.Ascend {α σ : Type} [Inhabited α] (lt : α → α → Bool) (t : BTree α)
    (iter : σ → α → Bool × σ) (s : σ) : σ :=
  match t.root with
  | none => s
  | some root => (root.iterate lt .ascend none none false false iter s).2.2

/-- `BTree.Descend(iterator)`: full descending walk; returns the iterator's
final state. -/
def BTree.Descend {α σ : Type} [Inhabited α] (lt : α → α → Bool) (t : BTree α)
    (iter : σ → α → Bool × σ) (s : σ) : σ :=
  match t.root with
  | none => s
  | some root => (root.iterate lt .descend none none false false iter s).2.2

/-- An iterator that records every visited record and never stops. -/
def collector {α : Type} (s : List α) (a : α) : Bool × List α :=
  (true, s ++ [a])

/-- The sequence of records a full `Ascend` visits. -/
def BTree.ascendList {α : Type} [Inhabited α] (lt : α → α → Bool) (t : BTree α) :
    List α :=
  t.Ascend lt collector []

/-- The sequence of records a full `Descend` visits. -/
def BTree.descendList {α : Type} [Inhabited α] (lt : α → α → Bool) (t : BTree α) :
    List α :=
  t.Descend lt collector []

/-- `BTree.Get(key)`. -/
def BTree.Get {α : Type} [Inhabited α] (lt : α → α → Bool) (t : BTree α)
    (key : α) : Option α :=
  match t.root with
  | none => none
  | some root => root.get lt key

/-- `BTree.Min()`. -/
def BTree.Min {α : Type} (t : BTree α) : Option α :=
  match t.root with
  | none => none   -- `min(nil)` returns nil
  | some root => root.minRec

/-- `BTree.Max()`. -/
def BTree.Max {α : Type} (t : BTree α) : Option α :=
  match t.root with
  | none => none   -- `max(nil)` returns nil
  | some root => root.maxRec

/-- `BTree.Has(key)`. -/
def BTree.Has {α : Type} [Inhabited α] (lt : α → α → Bool) (t : BTree α)
    (key : α) : Bool :=
  (t.Get lt key).isSome

/-- `BTree.Len()`. -/
def BTree.Len {α : Type} (t : BTree α) : Nat :=
  t.length

/-! ## Well-behaved `Less` relations

The B-Tree is correct for any `Less` that is a strict weak order: asymmetric,
with "not less" transitive.  Any `Less` comparing a key component by a linear
order satisfies this. -/

/-- A well-behaved `Less` method. -/
structure LessOK {α : Type} (lt : α → α → Bool) : Prop where
  asymm : ∀ a b, lt a b = true → lt b a = false
  notLtTrans : ∀ a b c, lt a b = false → lt b c = false → lt a c = false

theorem LessOK.irrefl {α : Type} {lt : α → α → Bool} (h : LessOK lt) (a : α) :
    lt a a = false := by
  by_cases hx : lt a a = true
  · have := h.asymm a a hx
    exact this
  · simpa using hx

theorem LessOK.ltTrans {α : Type} {lt : α → α → Bool} (h : LessOK lt) {a b c : α}
    (hab : lt a b = true) (hbc : lt b c = true) : lt a c = true := by
  by_cases hx : lt a c = true
  · exact hx
  · exfalso
    have hac : lt a c = false := by simpa using hx
    have hcb : lt c b = false := h.asymm b c hbc
    have : lt a b = false := h.notLtTrans a c b hac hcb
    rw [this] at hab
    exact Bool.false_ne_true hab

/-- `a < b` and `b` equivalent to `r` imply `a < r`. -/
theorem LessOK.lt_of_lt_equiv {α : Type} {lt : α → α → Bool} (h : LessOK lt)
    {a b r : α} (hab : lt a b = true) (h1 : lt b r = false) (h2 : lt r b = false) :
    lt a r = true := by
  by_cases hx : lt a r = true
  · exact hx
  · exfalso
    have har : lt a r = false := by simpa using hx
    have : lt a b = false := h.notLtTrans a r b har h2
    rw [this] at hab
    exact Bool.false_ne_true hab

/-- `a` equivalent to `b` and `b < c` imply `a < c`. -/
theorem LessOK.lt_of_equiv_lt {α : Type} {lt : α → α → Bool} (h : LessOK lt)
    {a b c : α} (h1 : lt a b = false) (h2 : lt b a = false) (hbc : lt b c = true) :
    lt a c = true := by
  by_cases hx : lt a c = true
  · exact hx
  · exfalso
    have hac : lt a c = false := by simpa using hx
    have : lt b c = false := h.notLtTrans b a c h2 hac
    rw [this] at hbc
    exact Bool.false_ne_true hbc

/-- A strictly sorted list relates any two positions. -/
theorem chain_getD_lt {α : Type} [Inhabited α] {lt : α → α → Bool} (h : LessOK lt)
    {rs : List α} (hch : List.Chain' (fun a b => lt a b = true) rs)
    {k m : Nat} (hkm : k < m) (hm : m < rs.length) :
    lt (rs.getD k default) (rs.getD m default) = true := by
  have hadj : ∀ i, (hi : i + 1 < rs.length) →
      lt (rs.getD i default) (rs.getD (i + 1) default) = true := by
    intro i hi
    have := List.chain'_iff_get.mp hch i (by omega)
    rw [List.getD_eq_getElem _ _ (by omega), List.getD_eq_getElem _ _ (by omega)]
    simpa [List.get_eq_getElem] using this
  clear hch
  induction m with
  | zero => omega
  | succ m ih =>
    by_cases hk : k = m
    · subst hk
      exact hadj k hm
    · have h1 := ih (by omega) (by omega)
      have h2 := hadj m hm
      exact h.ltTrans h1 h2

/-! ## `sort.Search` and `find` correctness -/

theorem searchLoop_false_below {f : Nat → Bool} (i j : Nat) :
    (∀ k1 k2, k1 ≤ k2 → k2 < j → f k1 = true → f k2 = true) →
    ∀ k, i ≤ k → k < searchLoop f i j → f k = false := by
  induction i, j using searchLoop.induct f with
  | case1 i j hij hm ih =>
    intro hmono k hk1 hk2
    rw [searchLoop, dif_pos hij, if_pos hm] at hk2
    exact ih (fun k1 k2 h1 h2 => hmono k1 k2 h1 (by omega)) k hk1 hk2
  | case2 i j hij hm ih =>
    intro hmono k hk1 hk2
    rw [searchLoop, dif_pos hij, if_neg (by simp [hm])] at hk2
    by_cases hkm : (i + j) / 2 + 1 ≤ k
    · exact ih hmono k hkm hk2
    · by_cases hkf : f k = false
      · exact hkf
      · exfalso
        have hkt : f k = true := by simpa using hkf
        have := hmono k ((i + j) / 2) (by omega) (by omega) hkt
        simp [this] at hm
  | case3 i j hij =>
    intro hmono k hk1 hk2
    rw [searchLoop, dif_neg hij] at hk2
    omega

theorem searchLoop_true_at {f : Nat → Bool} (i j : Nat) :
    searchLoop f i j < j → f (searchLoop f i j) = true := by
  induction i, j using searchLoop.induct f with
  | case1 i j hij hm ih =>
    intro hlt
    rw [searchLoop, dif_pos hij, if_pos hm]
    have hle := searchLoop_le (f := f) i ((i + j) / 2) (by omega)
    by_cases hx : searchLoop f i ((i + j) / 2) < (i + j) / 2
    · exact ih hx
    · have hxx : searchLoop f i ((i + j) / 2) = (i + j) / 2 := by omega
      rw [hxx]
      exact hm
  | case2 i j hij hm ih =>
    intro hlt
    rw [searchLoop, dif_pos hij, if_neg (by simp [hm])] at hlt ⊢
    exact ih hlt
  | case3 i j hij =>
    intro hlt
    rw [searchLoop, dif_neg hij] at hlt
    omega

theorem sortSearch_false_below {f : Nat → Bool} (n : Nat)
    (hmono : ∀ k1 k2, k1 ≤ k2 → k2 < n → f k1 = true → f k2 = true)
    (k : Nat) (hk : k < sortSearch n f) : f k = false :=
  searchLoop_false_below 0 n hmono k (Nat.zero_le k) hk

theorem sortSearch_true_at {f : Nat → Bool} (n : Nat) (h : sortSearch n f < n) :
    f (sortSearch n f) = true :=
  searchLoop_true_at 0 n h

/-- The binary search `find` performs over strictly sorted records is
monotone. -/
theorem find_mono {α : Type} [Inhabited α] {lt : α → α → Bool} (hlt : LessOK lt)
    {rs : List α} (hch : List.Chain' (fun a b => lt a b = true) rs) (r : α) :
    ∀ k1 k2, k1 ≤ k2 → k2 < rs.length →
      lt r (rs.getD k1 default) = true → lt r (rs.getD k2 default) = true := by
  intro k1 k2 h12 h2 h1
  rcases Nat.eq_or_lt_of_le h12 with rfl | hlt12
  · exact h1
  · exact hlt.ltTrans h1 (chain_getD_lt hlt hch hlt12 h2)

theorem find_allLt_below {α : Type} [Inhabited α] {lt : α → α → Bool}
    (hlt : LessOK lt) {rs : List α}
    (hch : List.Chain' (fun a b => lt a b = true) rs) (r : α) {m : Nat}
    (hm : m < rs.length) (hmlt : lt (rs.getD m default) r = true) :
    ∀ j, j ≤ m → lt (rs.getD j default) r = true := by
  intro j hj
  rcases Nat.eq_or_lt_of_le hj with rfl | hjm
  · exact hmlt
  · exact hlt.ltTrans (chain_getD_lt hlt hch hjm hm) hmlt

theorem find_allLt_below_equiv {α : Type} [Inhabited α] {lt : α → α → Bool}
    (hlt : LessOK lt) {rs : List α}
    (hch : List.Chain' (fun a b => lt a b = true) rs) (r : α) {m : Nat}
    (hm : m < rs.length) (h1 : lt (rs.getD m default) r = false)
    (h2 : lt r (rs.getD m default) = false) :
    ∀ j, j < m → lt (rs.getD j default) r = true := by
  intro j hj
  exact hlt.lt_of_lt_equiv (chain_getD_lt hlt hch hj hm) h1 h2

/-- **C3**: on a strictly ordered records sequence, `find(r)` returns the
first index at which the stored record is not less than `r` (the length when
there is none), and the `found` flag is set exactly when the record just
before the binary search's raw insertion point is equal to `r` in the sense
that neither is less than the other (in which case the returned index is that
preceding slot, else it is the raw insertion point itself). -/
theorem find_correct {α : Type} [Inhabited α] {lt : α → α → Bool} (hlt : LessOK lt)
    (rs : List α) (r : α)
    (hch : List.Chain' (fun a b => lt a b = true) rs) :
    (find lt rs r).1 = rs.findIdx (fun x => !(lt x r))
    ∧ ((find lt rs r).2 = true ↔
        0 < sortSearch rs.length (fun i => lt r (rs.getD i default))
        ∧ lt (rs.getD (sortSearch rs.length
            (fun i => lt r (rs.getD i default)) - 1) default) r = false
        ∧ lt r (rs.getD (sortSearch rs.length
            (fun i => lt r (rs.getD i default)) - 1) default) = false)
    ∧ ((find lt rs r).2 = true →
        (find lt rs r).1 = sortSearch rs.length
          (fun i => lt r (rs.getD i default)) - 1)
    ∧ ((find lt rs r).2 = false →
        (find lt rs r).1 = sortSearch rs.length
          (fun i => lt r (rs.getD i default))) := by
  have hbelow := sortSearch_false_below (f := fun i => lt r (rs.getD i default))
    rs.length (find_mono hlt hch r)
  have hiple := sortSearch_le rs.length (fun i => lt r (rs.getD i default))
  -- abbreviate the insertion point
  set ip := sortSearch rs.length (fun i => lt r (rs.getD i default)) with hip
  have hfind : find lt rs r = findAux lt rs r ip := rfl
  rw [hfind]
  unfold findAux
  by_cases h0 : 0 < ip
  · rw [if_pos h0]
    have hprevlt : lt r (rs.getD (ip - 1) default) = false := hbelow (ip - 1) (by omega)
    by_cases h1 : (!(lt (rs.getD (ip - 1) default) r)) = true
    · rw [if_pos h1]
      simp only [Bool.not_eq_true'] at h1
      have hn : 0 < rs.length := by omega
      refine ⟨?_, Iff.intro (fun _ => ⟨h0, h1, hprevlt⟩) (fun _ => rfl),
        fun _ => rfl, fun hx => by simp at hx⟩
      -- the returned index `ip - 1` is the first not-less index
      show ip - 1 = List.findIdx (fun x => !(lt x r)) rs
      symm
      rw [List.findIdx_eq (by omega : ip - 1 < rs.length)]
      constructor
      · rw [← List.getD_eq_getElem rs default (by omega : ip - 1 < rs.length), h1]
        rfl
      · intro j hj
        rw [← List.getD_eq_getElem rs default (by omega : j < rs.length),
          find_allLt_below_equiv hlt hch r (by omega) h1 hprevlt j hj]
        simp
    · rw [if_neg h1]
      simp only [Bool.not_eq_true', Bool.not_eq_false] at h1
      have hall : ∀ j, j < ip → lt (rs.getD j default) r = true := by
        intro j hj
        exact find_allLt_below hlt hch r (by omega) h1 j (by omega)
      refine ⟨?_, Iff.intro (fun hx => by simp at hx)
          (fun hcon => by rw [hcon.2.1] at h1; exact absurd h1 (by simp)),
        fun hx => by simp at hx, fun _ => rfl⟩
      show ip = List.findIdx (fun x => !(lt x r)) rs
      symm
      rcases Nat.eq_or_lt_of_le hiple with heq | hlt'
      · rw [heq]
        apply List.findIdx_eq_length_of_false
        intro x hx
        rcases List.mem_iff_getElem.mp hx with ⟨j, hjlen, rfl⟩
        rw [← List.getD_eq_getElem rs default hjlen, hall j (by omega)]
        rfl
      · rw [List.findIdx_eq hlt']
        constructor
        · have hat := sortSearch_true_at (f := fun i => lt r (rs.getD i default))
            rs.length hlt'
          have hx : lt (rs.getD ip default) r = false := hlt.asymm _ _ hat
          rw [← List.getD_eq_getElem rs default hlt', hx]
          rfl
        · intro j hj
          rw [← List.getD_eq_getElem rs default (by omega : j < rs.length),
            hall j hj]
          simp
  · rw [if_neg h0]
    have hip0 : ip = 0 := by omega
    refine ⟨?_, Iff.intro (fun hx => by simp at hx) (fun hcon => by omega),
      fun hx => by simp at hx, fun _ => rfl⟩
    show ip = List.findIdx (fun x => !(lt x r)) rs
    rw [hip0]
    symm
    rcases Nat.eq_zero_or_pos rs.length with hn | hn
    · rcases List.length_eq_zero.mp hn with rfl
      simp
    · rw [List.findIdx_eq hn]
      constructor
      · have hat := sortSearch_true_at (f := fun i => lt r (rs.getD i default))
          rs.length (by omega)
        rw [← hip, hip0] at hat
        have hx : lt (rs.getD 0 default) r = false := hlt.asymm _ _ hat
        rw [← List.getD_eq_getElem rs default hn, hx]
        rfl
      · intro j hj
        omega

/-! ## Concrete comparators (used by the closed witnesses) -/

/-! (the comparators are declared here, the C3 witness right after them) -/

/-- `Less` on naturals. -/
def natLt (a b : Nat) : Bool := decide (a < b)

theorem natLt_ok : LessOK natLt := by
  constructor
  · intro a b h
    simp [natLt] at *
    omega
  · intro a b c h1 h2
    simp [natLt] at *
    omega

/-- `Less` on key/value pairs that compares only the key (two records with
the same key are "equal" for the tree yet distinguishable by their value). -/
def keyLt (a b : Nat × Nat) : Bool := decide (a.1 < b.1)

theorem keyLt_ok : LessOK keyLt := by
  constructor
  · intro a b h
    simp [keyLt] at *
    omega
  · intro a b c h1 h2
    simp [keyLt] at *
    omega

/-- Closed witness for C3 at the 3-record list `[1, 3, 5]` and target `3`. -/
theorem find_correct_witness :
    LessOK natLt
    ∧ List.Chain' (fun a b => natLt a b = true) [1, 3, 5]
    ∧ ((find natLt [1, 3, 5] 3).1
        = List.findIdx (fun x => !(natLt x 3)) [1, 3, 5]
      ∧ ((find natLt [1, 3, 5] 3).2 = true ↔
          0 < sortSearch (([1, 3, 5] : List Nat)).length
            (fun i => natLt 3 (([1, 3, 5] : List Nat).getD i default))
          ∧ natLt (([1, 3, 5] : List Nat).getD (sortSearch
              (([1, 3, 5] : List Nat)).length
              (fun i => natLt 3 (([1, 3, 5] : List Nat).getD i default)) - 1)
              default) 3 = false
          ∧ natLt 3 (([1, 3, 5] : List Nat).getD (sortSearch
              (([1, 3, 5] : List Nat)).length
              (fun i => natLt 3 (([1, 3, 5] : List Nat).getD i default)) - 1)
              default) = false)
      ∧ ((find natLt [1, 3, 5] 3).2 = true →
          (find natLt [1, 3, 5] 3).1 = sortSearch (([1, 3, 5] : List Nat)).length
            (fun i => natLt 3 (([1, 3, 5] : List Nat).getD i default)) - 1)
      ∧ ((find natLt [1, 3, 5] 3).2 = false →
          (find natLt [1, 3, 5] 3).1 = sortSearch (([1, 3, 5] : List Nat)).length
            (fun i => natLt 3 (([1, 3, 5] : List Nat).getD i default)))) :=
  ⟨natLt_ok, by simp [List.chain'_cons, List.chain'_singleton, natLt],
    find_correct natLt_ok [1, 3, 5] 3
      (by simp [List.chain'_cons, List.chain'_singleton, natLt])⟩

/-! ## C7: inserting nil panics before any change -/

/-- **C7**: `Insert(nil)` fails fatally — the embedded panic is the `error`
result — and the tree (hence its `Len()`) is unchanged: the nil check runs
before any structural work begins. -/
theorem insert_nil_panics {α : Type} [Inhabited α] (lt : α → α → Bool)
    (t : BTree α) :
    (t.insertChecked lt none).1 = .error "nil record cannot be added to BTree"
    ∧ (t.insertChecked lt none).2 = t
    ∧ ((t.insertChecked lt none).2).Len = t.Len := by
  exact ⟨rfl, rfl, rfl⟩

/-! ## C8: deletions on an empty tree are no-ops -/

/-- **C8**: on an empty tree (no root, or a root holding zero records),
`Delete`, `DeleteMin`, `DeleteMax`, `Pop` and `Shift` all return the
not-found sentinel (`none`) and hand back the tree unchanged (same root,
same length). -/
theorem delete_empty_noop {α : Type} [Inhabited α] (lt : α → α → Bool)
    (t : BTree α) (r : α)
    (h : ∀ root, t.root = some root → root.records = []) :
    t.Delete lt r = (none, t)
    ∧ t.DeleteMin lt = (none, t)
    ∧ t.DeleteMax lt = (none, t)
    ∧ t.Pop lt = (none, t)
    ∧ t.Shift lt = (none, t) := by
  have hgen : ∀ (record : Option α) (typ : ToRemove),
      t.deleteRecord lt record typ = (none, t) := by
    intro record typ
    unfold BTree.deleteRecord
    match hroot : t.root with
    | none => rfl
    | some root =>
      have hrec : root.records = [] := h root hroot
      simp [hrec]
  exact ⟨hgen _ _, hgen _ _, hgen _ _, hgen _ _, hgen _ _⟩

/-- Closed witness for C8 at a concrete empty tree. -/
theorem delete_empty_noop_witness :
    (∀ root, (newTree Nat 2).root = some root → root.records = [])
    ∧ ((newTree Nat 2).Delete natLt 7 = (none, newTree Nat 2)
      ∧ (newTree Nat 2).DeleteMin natLt = (none, newTree Nat 2)
      ∧ (newTree Nat 2).DeleteMax natLt = (none, newTree Nat 2)
      ∧ (newTree Nat 2).Pop natLt = (none, newTree Nat 2)
      ∧ (newTree Nat 2).Shift natLt = (none, newTree Nat 2)) :=
  ⟨fun root hroot => by simp [newTree] at hroot,
    delete_empty_noop natLt (newTree Nat 2) 7
      (fun root hroot => by simp [newTree] at hroot)⟩

/-! ## C10: Min/Max on an empty tree -/

/-- A zero-record root node is a leaf.  This holds for every tree the
program builds: a root only loses its last record while childless, because
`deleteRecord` collapses a root that became empty but kept children. -/
def RootEmptyLeaf {α : Type} (t : BTree α) : Prop :=
  ∀ root, t.root = some root → root.records = [] → root.children = []

/-- **C10**: on an empty tree — no root, or a (well-formed) root holding
zero records — `Min()` and `Max()` return nil. -/
theorem min_max_empty {α : Type} (t : BTree α)
    (hwf : RootEmptyLeaf t)
    (hempty : t.root = none ∨ ∀ root, t.root = some root → root.records = []) :
    t.Min = none ∧ t.Max = none := by
  match hroot : t.root with
  | none =>
    unfold BTree.Min BTree.Max
    rw [hroot]
    exact ⟨rfl, rfl⟩
  | some root =>
    have hrec : root.records = [] := by
      rcases hempty with h | h
      · rw [hroot] at h
        cases h
      · exact h root hroot
    have hch : root.children = [] := hwf root hroot hrec
    unfold BTree.Min BTree.Max
    rw [hroot]
    constructor
    · simp [Node.minRec, hch, hrec]
    · simp [Node.maxRec, hch, hrec]

/-- Closed witness for C10: a tree emptied by deletion (insert 4 then
DeleteMin on a degree-2 tree leaves a rootless... rather, a root with zero
records) has nil Min and Max. -/
theorem min_max_empty_witness :
    RootEmptyLeaf (((newTree Nat 2).insertRec natLt 4).2.DeleteMin natLt).2
    ∧ ((((newTree Nat 2).insertRec natLt 4).2.DeleteMin natLt).2.root = none
      ∨ ∀ root, (((newTree Nat 2).insertRec natLt 4).2.DeleteMin natLt).2.root
          = some root → root.records = [])
    ∧ ((((newTree Nat 2).insertRec natLt 4).2.DeleteMin natLt).2.Min = none
      ∧ (((newTree Nat 2).insertRec natLt 4).2.DeleteMin natLt).2.Max = none) := by
  have h1 : (((newTree Nat 2).insertRec natLt 4).2.DeleteMin natLt).2.root
      = some (Node.mk [] []) := by
    simp [newTree, BTree.insertRec, BTree.DeleteMin, BTree.deleteRecord,
      removeFuel, nodeSize, sizeNodes, Node.removeGo, removeAt,
      BTree.minRecords, Node.records, Node.children]
  have hwf : RootEmptyLeaf (((newTree Nat 2).insertRec natLt 4).2.DeleteMin natLt).2 := by
    intro root hroot _hrec
    rw [h1] at hroot
    cases hroot
    rfl
  have hempty : (((newTree Nat 2).insertRec natLt 4).2.DeleteMin natLt).2.root = none
      ∨ ∀ root, (((newTree Nat 2).insertRec natLt 4).2.DeleteMin natLt).2.root
          = some root → root.records = [] := by
    right
    intro root hroot
    rw [h1] at hroot
    cases hroot
    rfl
  exact ⟨hwf, hempty, min_max_empty _ hwf hempty⟩

/-! ## Heap model of the copy-on-write machinery

The functional model above erases node identity.  The claims about clone
isolation and free-list ownership are about aliasing, so this second
embedding models the node graph explicitly: an arena of node cells addressed
by numeric pointers, each cell stamped with the identity of the
`copyOnWriteContext` that owns it (contexts are compared by pointer in Go;
fresh context identities come from a counter).  The free list is the shared
`FreeNodeList` (its `nodes` slice becomes a list of pointers).  Every
function below is the direct port of the corresponding Go function, with the
world threaded explicitly. -/

/-- A node cell in the arena (`node`): records, child pointers, and the
owner context (`nil` after the cell is freed). -/
structure HNode (α : Type) : Type where
  records : List α
  children : List Nat
  cowCtx : Option Nat

/-- The heap: the node arena (a pointer is an index; allocation appends),
the shared free list with its fixed capacity, and the allocator for fresh
context identities. -/
structure World (α : Type) : Type where
  heap : List (HNode α)
  free : List Nat
  freeCap : Nat
  ctxNext : Nat

/-- The zero `node` value (`new(node)`). -/
def emptyHNode {α : Type} : HNode α := ⟨[], [], none⟩

/-- Dereference a pointer. -/
def World.cell {α : Type} (w : World α) (p : Nat) : HNode α :=
  w.heap.getD p emptyHNode

/-- Write through a pointer. -/
def World.setCell {α : Type} (w : World α) (p : Nat) (c : HNode α) : World α :=
  { w with heap := w.heap.set p c }

/-- `FreeNodeList.newNode`: reuse the last free-listed node, else allocate a
fresh zeroed one. -/
def World.flNewNode {α : Type} (w : World α) : Nat × World α :=
  if w.free.length = 0 then
    (w.heap.length, { w with heap := w.heap ++ [emptyHNode] })
  else
    (w.free.getD (w.free.length - 1) 0, { w with free := w.free.dropLast })

/-- `FreeNodeList.freeNode`: append the node if below capacity, reporting
whether it was added. -/
def World.flFreeNode {α : Type} (w : World α) (p : Nat) : Bool × World α :=
  if w.free.length < w.freeCap then (true, { w with free := w.free ++ [p] })
  else (false, w)

/-- `copyOnWriteContext.newNode`: take a node from the free list and stamp
it with this context. -/
def cowNewNode {α : Type} (co : Option Nat) (w : World α) : Nat × World α :=
  let res := w.flNewNode
  (res.1, res.2.setCell res.1 { res.2.cell res.1 with cowCtx := co })

/-- `freeType`. -/
inductive FreeType : Type where
  | ftFreelistFull : FreeType
  | ftStored : FreeType
  | ftNotOwned : FreeType

/-- `copyOnWriteContext.freeNode`: if this context owns the node, clear it
(records, children, owner) and offer it to the free list; otherwise refuse
with `ftNotOwned` and touch nothing. -/
def cowFreeNode {α : Type} (co : Option Nat) (p : Nat) (w : World α) :
    FreeType × World α :=
  if (w.cell p).cowCtx = co then
    let w1 := w.setCell p
      { records := truncate (w.cell p).records 0,
        children := truncate (w.cell p).children 0,
        cowCtx := none }
    let res := w1.flFreeNode p
    if res.1 then (.ftStored, res.2) else (.ftFreelistFull, res.2)
  else (.ftNotOwned, w)

/-- **C9**: `freeNode` yields exactly one of the three outcomes, and when the
node's owner context differs from the calling context the outcome is
`ftNotOwned` with the whole world — node contents and free list included —
left untouched; when the node is owned, it is stored exactly when the free
list has room, else reported full. -/
theorem cowFreeNode_spec {α : Type} (c : Nat) (p : Nat) (w : World α) :
    ((cowFreeNode (some c) p w).1 = .ftStored
      ∨ (cowFreeNode (some c) p w).1 = .ftFreelistFull
      ∨ (cowFreeNode (some c) p w).1 = .ftNotOwned)
    ∧ ((w.cell p).cowCtx ≠ some c → cowFreeNode (some c) p w = (.ftNotOwned, w))
    ∧ ((w.cell p).cowCtx = some c →
        ((cowFreeNode (some c) p w).1 = .ftStored ↔ w.free.length < w.freeCap)) := by
  by_cases h : (w.cell p).cowCtx = some c
  · have hcomp : (cowFreeNode (some c) p w).1
        = if w.free.length < w.freeCap then FreeType.ftStored
          else FreeType.ftFreelistFull := by
      unfold cowFreeNode World.flFreeNode World.setCell
      rw [if_pos h]
      by_cases hroom : w.free.length < w.freeCap
      · simp [hroom]
      · simp [hroom]
    refine ⟨?_, fun hc => absurd h hc, fun _ => ?_⟩
    · rw [hcomp]
      by_cases hroom : w.free.length < w.freeCap
      · rw [if_pos hroom]
        exact Or.inl rfl
      · rw [if_neg hroom]
        exact Or.inr (Or.inl rfl)
    · rw [hcomp]
      by_cases hroom : w.free.length < w.freeCap
      · rw [if_pos hroom]
        exact iff_of_true rfl hroom
      · rw [if_neg hroom]
        constructor
        · intro hx
          cases hx
        · intro hx
          exact absurd hx hroom
  · have hcomp : cowFreeNode (some c) p w = (.ftNotOwned, w) := by
      unfold cowFreeNode
      rw [if_neg h]
    rw [hcomp]
    exact ⟨Or.inr (Or.inr rfl), fun _ => rfl, fun hc => absurd hc h⟩

/-- Closed witness for C9: freeing a node owned by context `1` under
context `0` is refused and modifies nothing. -/
theorem cowFreeNode_spec_witness :
    ((World.mk [HNode.mk [5] [] (some 1)] [] 4 2 : World Nat).cell 0).cowCtx ≠ some 0
    ∧ cowFreeNode (some 0) 0 (World.mk [HNode.mk [5] [] (some 1)] [] 4 2 : World Nat)
      = (.ftNotOwned, World.mk [HNode.mk [5] [] (some 1)] [] 4 2) :=
  ⟨by decide,
    (cowFreeNode_spec 0 0 (World.mk [HNode.mk [5] [] (some 1)] [] 4 2)).2.1 (by decide)⟩

/-- `node.mutableFor(cowCtx)`: return the node if already owned, else
allocate a node in the given context and copy records/children into it. -/
def mutableForW {α : Type} (co : Option Nat) (p : Nat) (w : World α) :
    Nat × World α :=
  if (w.cell p).cowCtx = co then (p, w)
  else
    let res := cowNewNode co w
    (res.1, res.2.setCell res.1
      { res.2.cell res.1 with
        records := (res.2.cell p).records,
        children := (res.2.cell p).children })

/-- `node.mutableChild(i)`: make child `i` mutable for this node's context
and store the (possibly new) pointer back into `children[i]`. -/
def mutableChildW {α : Type} (p : Nat) (i : Nat) (w : World α) :
    Nat × World α :=
  let c := (w.cell p).children.getD i 0
  let res := mutableForW (w.cell p).cowCtx c w
  (res.1, res.2.setCell p
    { res.2.cell p with children := (res.2.cell p).children.set i res.1 })

/-- `node.split(i)` in the heap: shrink cell `p` and return the promoted
record together with the pointer of the freshly allocated right node. -/
def splitW {α : Type} [Inhabited α] (p : Nat) (i : Nat) (w : World α) :
    (α × Nat) × World α :=
  let cp := w.cell p
  let record := cp.records.getD i default
  let res := cowNewNode cp.cowCtx w
  let w2 := res.2.setCell res.1
    { res.2.cell res.1 with
      records := (res.2.cell res.1).records ++ cp.records.drop (i + 1) }
  let w3 := w2.setCell p { w2.cell p with records := truncate (w2.cell p).records i }
  if (w3.cell p).children.length > 0 then
    let w4 := w3.setCell res.1
      { w3.cell res.1 with
        children := (w3.cell res.1).children ++ (w3.cell p).children.drop (i + 1) }
    let w5 := w4.setCell p
      { w4.cell p with children := truncate (w4.cell p).children (i + 1) }
    ((record, res.1), w5)
  else ((record, res.1), w3)

/-- `node.maybeSplitChild(i, maxRecords)` in the heap. -/
def maybeSplitChildW {α : Type} [Inhabited α] (p i maxRecords : Nat)
    (w : World α) : Bool × World α :=
  if (w.cell ((w.cell p).children.getD i 0)).records.length < maxRecords then
    (false, w)
  else
    let res1 := mutableChildW p i w
    let res2 := splitW res1.1 (maxRecords / 2) res1.2
    let cp := res2.2.cell p
    (true, res2.2.setCell p
      { cp with
        records := insertAt cp.records i res2.1.1,
        children := insertAt cp.children (i + 1) res2.1.2 })

mutual
/-- `node.insert` in the heap, with fuel (exhausted fuel is a write-free
no-op; the tree-level caller supplies ample fuel). -/
def insertW {α : Type} [Inhabited α] (lt : α → α → Bool) :
    Nat → Nat → α → Nat → World α → Option α × World α
  | 0, _, _, _, w => (none, w)
  | _fuel + 1, p, record, maxRecords, w =>
    let rs := (w.cell p).records
    let found := find lt rs record
    if found.2 then
      (some (rs.getD found.1 default),
        w.setCell p { w.cell p with records := rs.set found.1 record })
    else if (w.cell p).children.length = 0 then
      (none, w.setCell p { w.cell p with records := insertAt rs found.1 record })
    else
      let step := maybeSplitChildW p found.1 maxRecords w
      if step.1 then
        let rs1 := (step.2.cell p).records
        let splitRecord := rs1.getD found.1 default
        if lt record splitRecord then
          insertDescendW lt _fuel p found.1 record maxRecords step.2
        else if lt splitRecord record then
          insertDescendW lt _fuel p (found.1 + 1) record maxRecords step.2
        else
          (some splitRecord,
            step.2.setCell p { step.2.cell p with records := rs1.set found.1 record })
      else insertDescendW lt _fuel p found.1 record maxRecords step.2

/-- Descend into (mutable) child `idx` of cell `p` and insert there. -/
def insertDescendW {α : Type} [Inhabited α] (lt : α → α → Bool) :
    Nat → Nat → Nat → α → Nat → World α → Option α × World α
  | fuel, p, idx, record, maxRecords, w =>
    let resc := mutableChildW p idx w
    insertW lt fuel resc.1 record maxRecords resc.2
end

mutual
/-- `node.remove` in the heap, with fuel. -/
def removeGoW {α : Type} [Inhabited α] (lt : α → α → Bool) :
    Nat → Nat → Option α → Nat → ToRemove → World α → Option α × World α
  | 0, _, _, _, _, w => (none, w)
  | fuel + 1, p, record, minRecords, typ, w =>
    let rs := (w.cell p).records
    let cs := (w.cell p).children
    match typ with
    | .removeMax =>
      if cs.length = 0 then
        let res := popLast rs
        (some res.1, w.setCell p { w.cell p with records := res.2 })
      else removeStepW lt fuel p record minRecords typ rs.length false w
    | .removeMin =>
      if cs.length = 0 then
        let res := removeAt rs 0
        (some res.1, w.setCell p { w.cell p with records := res.2 })
      else removeStepW lt fuel p record minRecords typ 0 false w
    | .removeRecord =>
      let found :=
        match record with
        | some r => find lt rs r
        | none => (0, false)
      if cs.length = 0 then
        if found.2 then
          let res := removeAt rs found.1
          (some res.1, w.setCell p { w.cell p with records := res.2 })
        else (none, w)
      else removeStepW lt fuel p record minRecords typ found.1 found.2 w

/-- The internal-node tail of `node.remove` in the heap. -/
def removeStepW {α : Type} [Inhabited α] (lt : α → α → Bool) :
    Nat → Nat → Option α → Nat → ToRemove → Nat → Bool → World α →
      Option α × World α
  | 0, _, _, _, _, _, _, w => (none, w)
  | fuel + 1, p, record, minRecords, typ, targetIndex, recordFound, w =>
    if (w.cell ((w.cell p).children.getD targetIndex 0)).records.length
        ≤ minRecords then
      growW lt fuel p targetIndex record minRecords typ w
    else
      let resc := mutableChildW p targetIndex w
      let w1 := resc.2
      if recordFound then
        let replacedRecord := (w1.cell p).records.getD targetIndex default
        let res := removeGoW lt fuel resc.1 none minRecords .removeMax w1
        match res.1 with
        | some stolen =>
          (some replacedRecord, res.2.setCell p
            { res.2.cell p with
              records := (res.2.cell p).records.set targetIndex stolen })
        | none =>
          -- Go would store a nil record; unreachable on built trees
          (some replacedRecord, res.2)
      else
        removeGoW lt fuel resc.1 record minRecords typ w1

/-- `node.growChildAndRemove(i, …)` in the heap. -/
def growW {α : Type} [Inhabited α] (lt : α → α → Bool) :
    Nat → Nat → Nat → Option α → Nat → ToRemove → World α →
      Option α × World α
  | 0, _, _, _, _, _, w => (none, w)
  | fuel + 1, p, i, record, minRecords, typ, w =>
    if i > 0 ∧ (w.cell ((w.cell p).children.getD (i - 1) 0)).records.length
        > minRecords then
      -- steal from left sibling
      let rc := mutableChildW p i w
      let rsf := mutableChildW p (i - 1) rc.2
      let child := rc.1
      let stealFrom := rsf.1
      let w1 := rsf.2
      let stolen := popLast (w1.cell stealFrom).records
      let w2 := w1.setCell stealFrom { w1.cell stealFrom with records := stolen.2 }
      let w3 := w2.setCell child
        { w2.cell child with
          records := insertAt (w2.cell child).records 0
            ((w2.cell p).records.getD (i - 1) default) }
      let w4 := w3.setCell p
        { w3.cell p with records := (w3.cell p).records.set (i - 1) stolen.1 }
      let w5 :=
        if (w4.cell stealFrom).children.length > 0 then
          let sc := popLast (w4.cell stealFrom).children
          let wa := w4.setCell stealFrom { w4.cell stealFrom with children := sc.2 }
          wa.setCell child
            { wa.cell child with children := insertAt (wa.cell child).children 0 sc.1 }
        else w4
      removeGoW lt fuel p record minRecords typ w5
    else if i < (w.cell p).records.length ∧
        (w.cell ((w.cell p).children.getD (i + 1) 0)).records.length > minRecords then
      -- steal from right sibling
      let rc := mutableChildW p i w
      let rsf := mutableChildW p (i + 1) rc.2
      let child := rc.1
      let stealFrom := rsf.1
      let w1 := rsf.2
      let stolen := removeAt (w1.cell stealFrom).records 0
      let w2 := w1.setCell stealFrom { w1.cell stealFrom with records := stolen.2 }
      let w3 := w2.setCell child
        { w2.cell child with
          records := (w2.cell child).records ++ [(w2.cell p).records.getD i default] }
      let w4 := w3.setCell p
        { w3.cell p with records := (w3.cell p).records.set i stolen.1 }
      let w5 :=
        if (w4.cell stealFrom).children.length > 0 then
          let sc := removeAt (w4.cell stealFrom).children 0
          let wa := w4.setCell stealFrom { w4.cell stealFrom with children := sc.2 }
          wa.setCell child
            { wa.cell child with children := (wa.cell child).children ++ [sc.1] }
        else w4
      removeGoW lt fuel p record minRecords typ w5
    else
      -- merge with right sibling
      let i' := if i ≥ (w.cell p).records.length then i - 1 else i
      let rc := mutableChildW p i' w
      let child := rc.1
      let w1 := rc.2
      let mergeRes := removeAt (w1.cell p).records i'
      let childPtrRes := removeAt (w1.cell p).children (i' + 1)
      let w2 := w1.setCell p
        { w1.cell p with records := mergeRes.2, children := childPtrRes.2 }
      let rmf := mutableForW (w2.cell p).cowCtx childPtrRes.1 w2
      let mc := rmf.1
      let w3 := rmf.2
      let w4 := w3.setCell child
        { w3.cell child with
          records := (w3.cell child).records ++ mergeRes.1 :: (w3.cell mc).records,
          children := (w3.cell child).children ++ (w3.cell mc).children }
      let res := cowFreeNode ((w4.cell p).cowCtx) mc w4
      removeGoW lt fuel p record minRecords typ res.2
end

/-- The `BTree` struct in the heap model: the root is a pointer and the COW
context is a context identity. -/
structure HTree : Type where
  degree : Nat
  length : Nat
  root : Option Nat
  ctx : Nat

/-- `maxRecords` for a heap tree. -/
def HTree.maxRecords (t : HTree) : Nat := t.degree * 2 - 1

/-- `minRecords` for a heap tree. -/
def HTree.minRecords (t : HTree) : Nat := t.degree - 1

/-- `Len()` for a heap tree. -/
def HTree.Len (t : HTree) : Nat := t.length

/-- `BTree.Insert` in the heap model (non-nil record). -/
def hInsert {α : Type} [Inhabited α] (lt : α → α → Bool) (t : HTree)
    (record : α) (w : World α) : Option α × HTree × World α :=
  match t.root with
  | none =>
    let res := cowNewNode (some t.ctx) w
    let w1 := res.2.setCell res.1
      { res.2.cell res.1 with records := (res.2.cell res.1).records ++ [record] }
    (none, { t with root := some res.1, length := t.length + 1 }, w1)
  | some root =>
    let res0 := mutableForW (some t.ctx) root w
    let root1 := res0.1
    let w1 := res0.2
    let rootw :=
      if (w1.cell root1).records.length ≥ t.maxRecords then
        let sp := splitW root1 (t.maxRecords / 2) w1
        let res2 := cowNewNode (some t.ctx) sp.2
        let w2 := res2.2.setCell res2.1
          { res2.2.cell res2.1 with
            records := (res2.2.cell res2.1).records ++ [sp.1.1],
            children := (res2.2.cell res2.1).children ++ [root1, sp.1.2] }
        (res2.1, w2)
      else (root1, w1)
    let resI := insertW lt (rootw.2.heap.length + 1) rootw.1 record t.maxRecords rootw.2
    match resI.1 with
    | none => (none, { t with root := some rootw.1, length := t.length + 1 }, resI.2)
    | some old => (some old, { t with root := some rootw.1 }, resI.2)

/-- `BTree.deleteRecord` in the heap model. -/
def hDelete {α : Type} [Inhabited α] (lt : α → α → Bool) (t : HTree)
    (record : Option α) (typ : ToRemove) (w : World α) :
    Option α × HTree × World α :=
  match t.root with
  | none => (none, t, w)
  | some root =>
    if (w.cell root).records.length = 0 then (none, t, w)
    else
      let res0 := mutableForW (some t.ctx) root w
      let root1 := res0.1
      let w1 := res0.2
      let res := removeGoW lt (w1.heap.length * 5 + 5) root1 record t.minRecords typ w1
      let w2 := res.2
      let tv :=
        if (w2.cell root1).records.length = 0 ∧ (w2.cell root1).children.length > 0 then
          let newRoot := (w2.cell root1).children.getD 0 0
          let fr := cowFreeNode (some t.ctx) root1 w2
          (newRoot, fr.2)
        else (root1, w2)
      match res.1 with
      | some removed =>
        (some removed, { t with root := some tv.1, length := t.length - 1 }, tv.2)
      | none => (none, { t with root := some tv.1 }, tv.2)

/-- `BTree.Clone()`: both trees keep the shared node graph and free list;
each receives a fresh context identity (the two new `copyOnWriteContext`
values). -/
def hClone {α : Type} (t : HTree) (w : World α) : HTree × HTree × World α :=
  ({ t with ctx := w.ctxNext }, { t with ctx := w.ctxNext + 1 },
    { w with ctxNext := w.ctxNext + 2 })

/-- A mutation of one tree: `Insert`, `Delete`, `DeleteMin` or `DeleteMax`
(`Pop`/`Shift` are definitionally the latter two). -/
inductive HOp (α : Type) : Type where
  | insert (r : α) : HOp α
  | delete (r : α) : HOp α
  | deleteMin : HOp α
  | deleteMax : HOp α

/-- Apply one mutation to a heap tree. -/
def applyOp {α : Type} [Inhabited α] (lt : α → α → Bool) (op : HOp α)
    (t : HTree) (w : World α) : HTree × World α :=
  match op with
  | .insert r => ((hInsert lt t r w).2.1, (hInsert lt t r w).2.2)
  | .delete r =>
    ((hDelete lt t (some r) .removeRecord w).2.1,
      (hDelete lt t (some r) .removeRecord w).2.2)
  | .deleteMin =>
    ((hDelete lt t none .removeMin w).2.1, (hDelete lt t none .removeMin w).2.2)
  | .deleteMax =>
    ((hDelete lt t none .removeMax w).2.1, (hDelete lt t none .removeMax w).2.2)

/-- Apply a sequence of mutations to a heap tree. -/
def applyOps {α : Type} [Inhabited α] (lt : α → α → Bool) (ops : List (HOp α))
    (t : HTree) (w : World α) : HTree × World α :=
  match ops with
  | [] => (t, w)
  | op :: rest =>
    let res := applyOp lt op t w
    applyOps lt rest res.1 res.2

/-- Read the subtree at pointer `p` back into the functional model (the
sequence of records `Ascend` visits, `Len`, `Get`, … are all functions of
this value). -/
def readTree {α : Type} (fuel : Nat) (w : World α) (p : Nat) : Node α :=
  match fuel with
  | 0 => default
  | fuel + 1 =>
    .mk ((w.cell p).records) (((w.cell p).children).map (readTree fuel w))

/-- The records a full `Ascend` of a heap tree visits: the heap tree read
back into the functional model, traversed by the (ported) iterator. -/
def hAscendList {α : Type} [Inhabited α] (lt : α → α → Bool) (t : HTree)
    (w : World α) : List α :=
  BTree.ascendList lt
    { degree := t.degree, length := t.length,
      root := t.root.map (readTree w.heap.length w) }

/-! ### Write locality of the mutation path

Every heap write a mutation performs under context `c` targets a cell that
is owned by `c`, already retired (`nil` owner or on the free list), or
freshly allocated.  Cells owned by a *different* context — in particular
everything a cloned sibling tree can reach — are never written and never
enter the free list.  `Step` is that frame property; `OpOK` adds the
bookkeeping needed to chain it through a whole operation. -/

/-- Contexts a mutation under `c` may stamp onto cells: its own, or `nil`
(the owner of a freed cell). -/
def StampOK {α : Type} (c : Nat) (co : Option Nat) : Prop :=
  co = some c ∨ co = (none : Option Nat)

/-- Cells a mutation under `c` is allowed to touch: owner `c` or `nil`,
free-listed, or unallocated. -/
def NonProt {α : Type} (c : Nat) (w : World α) (q : Nat) : Prop :=
  StampOK (α := α) c ((w.cell q).cowCtx) ∨ q ∈ w.free ∨ w.heap.length ≤ q

/-- The frame: every protected cell keeps its contents and stays off the
free list; the heap only grows; capacity and the context counter are
stable. -/
def Step {α : Type} (c : Nat) (w w' : World α) : Prop :=
  w.heap.length ≤ w'.heap.length
  ∧ w'.freeCap = w.freeCap
  ∧ w'.ctxNext = w.ctxNext
  ∧ ∀ q, ¬ NonProt c w q → (w'.cell q = w.cell q ∧ q ∉ w'.free)

/-- `Step` plus monotonicity of touchability and of owner stamps. -/
def OpOK {α : Type} (c : Nat) (w w' : World α) : Prop :=
  Step c w w'
  ∧ (∀ q, NonProt c w q → NonProt c w' q)
  ∧ (∀ q, StampOK (α := α) c ((w.cell q).cowCtx) →
      StampOK (α := α) c ((w'.cell q).cowCtx))

theorem nonProt_of_mem_free {α : Type} {c : Nat} {w : World α} {q : Nat}
    (h : q ∈ w.free) : NonProt c w q :=
  Or.inr (Or.inl h)

theorem not_nonProt_lt {α : Type} {c : Nat} {w : World α} {q : Nat}
    (h : ¬ NonProt c w q) : q < w.heap.length := by
  by_cases hx : q < w.heap.length
  · exact hx
  · exact absurd (Or.inr (Or.inr (by omega))) h

theorem not_nonProt_not_free {α : Type} {c : Nat} {w : World α} {q : Nat}
    (h : ¬ NonProt c w q) : q ∉ w.free := by
  intro hq
  exact h (nonProt_of_mem_free hq)

theorem opOK_refl {α : Type} (c : Nat) (w : World α) : OpOK c w w :=
  ⟨⟨le_refl _, rfl, rfl, fun _ hq => ⟨rfl, not_nonProt_not_free hq⟩⟩,
    fun _ h => h, fun _ h => h⟩

theorem opOK_trans {α : Type} {c : Nat} {w1 w2 w3 : World α}
    (h12 : OpOK c w1 w2) (h23 : OpOK c w2 w3) : OpOK c w1 w3 := by
  obtain ⟨⟨hl12, hc12, hn12, hf12⟩, hm12, hs12⟩ := h12
  obtain ⟨⟨hl23, hc23, hn23, hf23⟩, hm23, hs23⟩ := h23
  refine ⟨⟨le_trans hl12 hl23, hc23.trans hc12, hn23.trans hn12, ?_⟩,
    fun q hq => hm23 q (hm12 q hq), ?_⟩
  · intro q hq
    have h1 := hf12 q hq
    have hq2 : ¬ NonProt c w2 q := by
      intro hx
      apply hq
      rcases hx with hx' | hx' | hx'
      · rw [h1.1] at hx'
        exact Or.inl hx'
      · exact absurd hx' h1.2
      · exact Or.inr (Or.inr (by have := not_nonProt_lt hq; omega))
    have h2 := hf23 q hq2
    exact ⟨h2.1.trans h1.1, h2.2⟩
  · intro q hq
    exact hs23 q (hs12 q hq)

@[simp] theorem cell_setCell_self {α : Type} (w : World α) (q : Nat)
    (cl : HNode α) (hq : q < w.heap.length) : (w.setCell q cl).cell q = cl := by
  unfold World.setCell World.cell
  simp [List.getD_eq_getElem?_getD, List.getElem?_set_self' , hq]

theorem cell_setCell_other {α : Type} (w : World α) (q r : Nat)
    (cl : HNode α) (h : r ≠ q) : (w.setCell q cl).cell r = w.cell r := by
  unfold World.setCell World.cell
  rw [List.getD_eq_getElem?_getD, List.getD_eq_getElem?_getD,
    List.getElem?_set_ne (by omega)]

theorem cell_setCell_oob {α : Type} (w : World α) (q : Nat) (cl : HNode α)
    (h : w.heap.length ≤ q) : (w.setCell q cl).cell = w.cell := by
  unfold World.setCell
  rw [List.set_eq_of_length_le h]

@[simp] theorem setCell_free {α : Type} (w : World α) (q : Nat) (cl : HNode α) :
    (w.setCell q cl).free = w.free := rfl

@[simp] theorem setCell_freeCap {α : Type} (w : World α) (q : Nat) (cl : HNode α) :
    (w.setCell q cl).freeCap = w.freeCap := rfl

@[simp] theorem setCell_ctxNext {α : Type} (w : World α) (q : Nat) (cl : HNode α) :
    (w.setCell q cl).ctxNext = w.ctxNext := rfl

@[simp] theorem setCell_heap_length {α : Type} (w : World α) (q : Nat) (cl : HNode α) :
    (w.setCell q cl).heap.length = w.heap.length := by
  unfold World.setCell
  simp

/-- Writing a touchable cell without changing its owner stamp is `OpOK`. -/
theorem opOK_setCell_keep {α : Type} {c : Nat} {w : World α} {q : Nat}
    {cl : HNode α} (hq : NonProt c w q) (hctx : cl.cowCtx = (w.cell q).cowCtx) :
    OpOK c w (w.setCell q cl) := by
  by_cases hlen : q < w.heap.length
  · refine ⟨⟨by simp, rfl, rfl, ?_⟩, ?_, ?_⟩
    · intro r hr
      have hrq : r ≠ q := fun hx => hr (hx ▸ hq)
      exact ⟨cell_setCell_other w q r cl hrq,
        by rw [setCell_free]; exact not_nonProt_not_free hr⟩
    · intro r hr
      by_cases hrq : r = q
      · subst hrq
        rcases hr with hr' | hr' | hr'
        · exact Or.inl (by rw [cell_setCell_self w r cl hlen, hctx]; exact hr')
        · exact Or.inr (Or.inl hr')
        · exact Or.inr (Or.inr (by simpa using hr'))
      · rcases hr with hr' | hr' | hr'
        · exact Or.inl (by rw [cell_setCell_other w q r cl hrq]; exact hr')
        · exact Or.inr (Or.inl hr')
        · exact Or.inr (Or.inr (by simpa using hr'))
    · intro r hr
      by_cases hrq : r = q
      · subst hrq
        rw [cell_setCell_self w r cl hlen, hctx]
        exact hr
      · rw [cell_setCell_other w q r cl hrq]
        exact hr
  · rw [show w.setCell q cl
        = { w with heap := w.heap.set q cl } from rfl]
    have : w.heap.set q cl = w.heap := List.set_eq_of_length_le (by omega)
    rw [this]
    exact opOK_refl c w

/-- Writing a touchable cell with an allowed owner stamp is `OpOK`. -/
theorem opOK_setCell_stamp {α : Type} {c : Nat} {w : World α} {q : Nat}
    {cl : HNode α} (hq : NonProt c w q) (hctx : StampOK (α := α) c cl.cowCtx) :
    OpOK c w (w.setCell q cl) := by
  by_cases hlen : q < w.heap.length
  · refine ⟨⟨by simp, rfl, rfl, ?_⟩, ?_, ?_⟩
    · intro r hr
      have hrq : r ≠ q := fun hx => hr (hx ▸ hq)
      exact ⟨cell_setCell_other w q r cl hrq,
        by rw [setCell_free]; exact not_nonProt_not_free hr⟩
    · intro r hr
      by_cases hrq : r = q
      · subst hrq
        exact Or.inl (by rw [cell_setCell_self w r cl hlen]; exact hctx)
      · rcases hr with hr' | hr' | hr'
        · exact Or.inl (by rw [cell_setCell_other w q r cl hrq]; exact hr')
        · exact Or.inr (Or.inl hr')
        · exact Or.inr (Or.inr (by simpa using hr'))
    · intro r hr
      by_cases hrq : r = q
      · subst hrq
        rw [cell_setCell_self w r cl hlen]
        exact hctx
      · rw [cell_setCell_other w q r cl hrq]
        exact hr
  · rw [show w.setCell q cl = { w with heap := w.heap.set q cl } from rfl]
    have : w.heap.set q cl = w.heap := List.set_eq_of_length_le (by omega)
    rw [this]
    exact opOK_refl c w

theorem cell_append {α : Type} (w : World α) (l : List (HNode α)) (q : Nat)
    (hq : q < w.heap.length) :
    ({ w with heap := w.heap ++ l } : World α).cell q = w.cell q := by
  unfold World.cell
  rw [List.getD_eq_getElem?_getD, List.getD_eq_getElem?_getD,
    List.getElem?_append_left hq]

theorem mem_dropLast_or_last {α : Type} [Inhabited α] {l : List α} {q : α}
    (h : q ∈ l) : q ∈ l.dropLast ∨ q = l.getD (l.length - 1) default := by
  rcases Nat.eq_zero_or_pos l.length with h0 | h0
  · rcases List.length_eq_zero.mp h0 with rfl
    simp at h
  · have hsplit : l = l.dropLast ++ [l.getD (l.length - 1) default] := by
      conv_lhs => rw [← List.dropLast_append_getLast (List.length_pos.mp h0)]
      congr 1
      rw [List.getLast_eq_getElem, List.getD_eq_getElem _ _ (by omega)]
    rw [hsplit] at h
    rcases List.mem_append.mp h with h' | h'
    · exact Or.inl h'
    · exact Or.inr (by simpa using h')

/-- Allocating (or recycling) a node and stamping it with an allowed context
is `OpOK`; the returned pointer is touchable with an allowed stamp. -/
theorem cowNewNode_opOK {α : Type} {c : Nat} {co : Option Nat} {w : World α}
    (hco : StampOK (α := α) c co) :
    OpOK c w (cowNewNode co w).2
    ∧ NonProt c (cowNewNode co w).2 (cowNewNode co w).1
    ∧ StampOK (α := α) c (((cowNewNode co w).2.cell (cowNewNode co w).1).cowCtx) := by
  -- facts about the result world
  have hgen : ∀ (p : Nat) (w1 : World α),
      NonProt c w p →
      (∀ q, q ≠ p → w1.cell q = w.cell q) →
      StampOK (α := α) c ((w1.cell p).cowCtx) →
      (∀ q, q ∈ w1.free → q ∈ w.free) →
      (∀ q, q ∈ w.free → q ≠ p → q ∈ w1.free) →
      w.heap.length ≤ w1.heap.length →
      w1.freeCap = w.freeCap → w1.ctxNext = w.ctxNext →
      OpOK c w w1 ∧ NonProt c w1 p
        ∧ StampOK (α := α) c ((w1.cell p).cowCtx) := by
    intro p w1 hpnon hother hpctx hfree1 hfree2 hlen hcap hctx
    have hoobcell : ∀ q, q ≠ p → w.heap.length ≤ q → w1.cell q = emptyHNode := by
      intro q hqp hql
      rw [hother q hqp]
      unfold World.cell
      rw [List.getD_eq_default _ _ (by omega)]
    refine ⟨⟨⟨hlen, hcap, hctx, ?_⟩, ?_, ?_⟩, Or.inl hpctx, hpctx⟩
    · intro q hq
      have hqp : q ≠ p := by
        intro hx
        subst hx
        exact hq hpnon
      exact ⟨hother q hqp, fun hx => (not_nonProt_not_free hq) (hfree1 q hx)⟩
    · intro q hq
      by_cases hqp : q = p
      · subst hqp
        exact Or.inl hpctx
      · rcases hq with hq' | hq' | hq'
        · exact Or.inl (by rw [hother q hqp]; exact hq')
        · exact Or.inr (Or.inl (hfree2 q hq' hqp))
        · exact Or.inl (by rw [hoobcell q hqp hq']; exact Or.inr rfl)
    · intro q hq
      by_cases hqp : q = p
      · subst hqp
        exact hpctx
      · rw [hother q hqp]
        exact hq
  unfold cowNewNode World.flNewNode
  by_cases hfree : w.free.length = 0
  · rw [if_pos hfree]
    simp only []
    apply hgen
    · exact Or.inr (Or.inr (le_refl _))
    · intro q hq
      by_cases hql : q < w.heap.length
      · rw [cell_setCell_other _ _ _ _ hq]
        exact cell_append w [emptyHNode] q hql
      · have h1 : ({ w with heap := w.heap ++ [emptyHNode] } : World α).cell q
            = emptyHNode := by
          unfold World.cell
          rw [List.getD_eq_default _ _ (by simp; omega)]
        have h2 : w.cell q = emptyHNode := by
          unfold World.cell
          rw [List.getD_eq_default _ _ (by omega)]
        rw [cell_setCell_other _ _ _ _ hq, h1, h2]
    · have hlt : w.heap.length
          < ({ w with heap := w.heap ++ [emptyHNode] } : World α).heap.length := by
        simp
      rw [cell_setCell_self _ _ _ hlt]
      exact hco
    · intro q hq
      exact hq
    · intro q hq _
      exact hq
    · simp
    · rfl
    · rfl
  · rw [if_neg hfree]
    simp only []
    apply hgen
    · exact Or.inr (Or.inl (by
        rw [List.getD_eq_getElem _ _ (by omega)]
        exact List.getElem_mem (by omega)))
    · intro q hq
      rw [cell_setCell_other _ _ _ _ hq]
      rfl
    · by_cases hpl : w.free.getD (w.free.length - 1) 0 < w.heap.length
      · rw [cell_setCell_self _ _ _ (by simpa using hpl)]
        exact hco
      · have hoob : (({ w with free := w.free.dropLast } : World α).setCell
            (w.free.getD (w.free.length - 1) 0)
            { ({ w with free := w.free.dropLast } : World α).cell
                (w.free.getD (w.free.length - 1) 0) with cowCtx := co }).cell
            = ({ w with free := w.free.dropLast } : World α).cell := by
          apply cell_setCell_oob
          exact Nat.le_of_not_lt hpl
        rw [hoob]
        have : ({ w with free := w.free.dropLast } : World α).cell
            (w.free.getD (w.free.length - 1) 0) = emptyHNode := by
          unfold World.cell
          rw [List.getD_eq_default _ _ (Nat.le_of_not_lt hpl)]
        rw [this]
        exact Or.inr rfl
    · intro q hq
      rw [setCell_free] at hq
      exact List.mem_of_mem_dropLast hq
    · intro q hq hqp
      rw [setCell_free]
      rcases mem_dropLast_or_last hq with h | h
      · exact h
      · exact absurd h hqp
    · simp
    · rfl
    · rfl

/-- Appending a touchable pointer to the free list is `OpOK`. -/
theorem opOK_free_append {α : Type} {c : Nat} {w : World α} {q : Nat}
    (hq : NonProt c w q) :
    OpOK c w ({ w with free := w.free ++ [q] } : World α) := by
  refine ⟨⟨le_refl _, rfl, rfl, ?_⟩, ?_, ?_⟩
  · intro r hr
    refine ⟨rfl, ?_⟩
    intro hx
    rcases List.mem_append.mp hx with h | h
    · exact (not_nonProt_not_free hr) h
    · simp at h
      subst h
      exact hr hq
  · intro r hr
    rcases hr with hr' | hr' | hr'
    · exact Or.inl hr'
    · exact Or.inr (Or.inl (List.mem_append.mpr (Or.inl hr')))
    · exact Or.inr (Or.inr hr')
  · intro r hr
    exact hr

/-- `copyOnWriteContext.freeNode` under an allowed context is `OpOK`. -/
theorem cowFreeNode_opOK {α : Type} {c : Nat} {co : Option Nat} {w : World α}
    (p : Nat) (hco : StampOK (α := α) c co) :
    OpOK c w (cowFreeNode co p w).2 := by
  unfold cowFreeNode World.flFreeNode
  by_cases h : (w.cell p).cowCtx = co
  · rw [if_pos h]
    simp only []
    have hpnon : NonProt c w p := Or.inl (h ▸ hco)
    have h1 : OpOK c w (w.setCell p
        { records := truncate (w.cell p).records 0,
          children := truncate (w.cell p).children 0, cowCtx := none }) :=
      opOK_setCell_stamp hpnon (Or.inr rfl)
    set w1 := w.setCell p
      { records := truncate (w.cell p).records 0,
        children := truncate (w.cell p).children 0, cowCtx := none } with hw1
    by_cases hroom : w1.free.length < w1.freeCap
    · rw [if_pos hroom]
      have hpnon1 : NonProt c w1 p := by
        by_cases hpl : p < w.heap.length
        · exact Or.inl (by
            rw [hw1, cell_setCell_self _ _ _ hpl]
            exact Or.inr rfl)
        · exact Or.inr (Or.inr (by rw [hw1]; simpa using Nat.le_of_not_lt hpl))
      exact opOK_trans h1 (opOK_free_append hpnon1)
    · rw [if_neg hroom]
      exact h1
  · rw [if_neg h]
    exact opOK_refl c w

/-- `node.mutableFor` under an allowed context is `OpOK`; the returned
pointer is touchable and carries an allowed stamp. -/
theorem mutableForW_opOK {α : Type} {c : Nat} {co : Option Nat} {w : World α}
    (p : Nat) (hco : StampOK (α := α) c co) :
    OpOK c w (mutableForW co p w).2
    ∧ NonProt c (mutableForW co p w).2 (mutableForW co p w).1
    ∧ StampOK (α := α) c (((mutableForW co p w).2.cell (mutableForW co p w).1).cowCtx) := by
  unfold mutableForW
  by_cases h : (w.cell p).cowCtx = co
  · rw [if_pos h]
    exact ⟨opOK_refl c w, Or.inl (h ▸ hco), h ▸ hco⟩
  · rw [if_neg h]
    simp only []
    obtain ⟨h1, hnp, hst⟩ := cowNewNode_opOK (w := w) hco
    refine ⟨opOK_trans h1 (opOK_setCell_keep hnp (by rfl)), ?_, ?_⟩
    · by_cases hql : (cowNewNode co w).1 < (cowNewNode co w).2.heap.length
      · exact Or.inl (by rw [cell_setCell_self _ _ _ hql]; exact hst)
      · exact Or.inr (Or.inr (by simpa using Nat.le_of_not_lt hql))
    · by_cases hql : (cowNewNode co w).1 < (cowNewNode co w).2.heap.length
      · rw [cell_setCell_self _ _ _ hql]
        exact hst
      · rw [cell_setCell_oob _ _ _ (Nat.le_of_not_lt hql)]
        exact hst

/-- `node.mutableChild` is `OpOK` when this node carries an allowed stamp;
the stored-back child pointer carries an allowed stamp too. -/
theorem mutableChildW_opOK {α : Type} {c : Nat} {w : World α} (p i : Nat)
    (hp : StampOK (α := α) c ((w.cell p).cowCtx)) :
    OpOK c w (mutableChildW p i w).2
    ∧ StampOK (α := α) c
        (((mutableChildW p i w).2.cell (mutableChildW p i w).1).cowCtx) := by
  unfold mutableChildW
  simp only []
  obtain ⟨h1, hnp, hst⟩ :=
    mutableForW_opOK (w := w) ((w.cell p).children.getD i 0) hp
  set q := (mutableForW (w.cell p).cowCtx ((w.cell p).children.getD i 0) w).1 with hq
  set w1 := (mutableForW (w.cell p).cowCtx ((w.cell p).children.getD i 0) w).2 with hw1
  have hpnon1 : NonProt c w1 p := h1.2.1 p (Or.inl hp)
  have h2 : OpOK c w1 (w1.setCell p
      { w1.cell p with children := (w1.cell p).children.set i q }) :=
    opOK_setCell_keep hpnon1 rfl
  refine ⟨opOK_trans h1 h2, ?_⟩
  exact h2.2.2 q hst

/-- `node.split` is `OpOK` when the split node carries an allowed stamp. -/
theorem splitW_opOK {α : Type} [Inhabited α] {c : Nat} {w : World α} (p i : Nat)
    (hp : StampOK (α := α) c ((w.cell p).cowCtx)) :
    OpOK c w (splitW p i w).2 := by
  unfold splitW
  simp only []
  obtain ⟨h1, hnp, hst⟩ := @cowNewNode_opOK _ c ((w.cell p).cowCtx) w hp
  set q := (cowNewNode (w.cell p).cowCtx w).1 with hq
  set w1 := (cowNewNode (w.cell p).cowCtx w).2 with hw1
  have h2 : OpOK c w1 (w1.setCell q
      { w1.cell q with records := (w1.cell q).records ++ (w.cell p).records.drop (i + 1) }) :=
    opOK_setCell_keep hnp (by rfl)
  set w2 := w1.setCell q
      { w1.cell q with records := (w1.cell q).records ++ (w.cell p).records.drop (i + 1) }
    with hw2
  have hnp2 : NonProt c w2 p := h2.2.1 p (h1.2.1 p (Or.inl hp))
  have h3 : OpOK c w2 (w2.setCell p
      { w2.cell p with records := truncate (w2.cell p).records i }) :=
    opOK_setCell_keep hnp2 (by rfl)
  set w3 := w2.setCell p { w2.cell p with records := truncate (w2.cell p).records i }
    with hw3
  have h123 : OpOK c w w3 := opOK_trans (opOK_trans h1 h2) h3
  by_cases hch : (w3.cell p).children.length > 0
  · rw [if_pos hch]
    have hnpq3 : NonProt c w3 q := h3.2.1 q (h2.2.1 q hnp)
    have h4 : OpOK c w3 (w3.setCell q
        { w3.cell q with
          children := (w3.cell q).children ++ (w3.cell p).children.drop (i + 1) }) :=
      opOK_setCell_keep hnpq3 (by rfl)
    set w4 := w3.setCell q
      { w3.cell q with
        children := (w3.cell q).children ++ (w3.cell p).children.drop (i + 1) }
      with hw4
    have hnp4 : NonProt c w4 p := h4.2.1 p (h3.2.1 p hnp2)
    have h5 : OpOK c w4 (w4.setCell p
        { w4.cell p with children := truncate (w4.cell p).children (i + 1) }) :=
      opOK_setCell_keep hnp4 (by rfl)
    exact opOK_trans (opOK_trans h123 h4) h5
  · rw [if_neg hch]
    exact h123

/-- `node.maybeSplitChild` is `OpOK` when the node carries an allowed stamp. -/
theorem maybeSplitChildW_opOK {α : Type} [Inhabited α] {c : Nat} {w : World α}
    (p i maxRecords : Nat) (hp : StampOK (α := α) c ((w.cell p).cowCtx)) :
    OpOK c w (maybeSplitChildW p i maxRecords w).2 := by
  unfold maybeSplitChildW
  by_cases hguard : (w.cell ((w.cell p).children.getD i 0)).records.length < maxRecords
  · rw [if_pos hguard]
    exact opOK_refl c w
  · rw [if_neg hguard]
    simp only []
    obtain ⟨h1, hst1⟩ := mutableChildW_opOK (w := w) p i hp
    set q := (mutableChildW p i w).1 with hq
    set w1 := (mutableChildW p i w).2 with hw1
    have h2 : OpOK c w1 (splitW q (maxRecords / 2) w1).2 := splitW_opOK q _ hst1
    set w2 := (splitW q (maxRecords / 2) w1).2 with hw2
    have hnp2 : NonProt c w2 p := h2.2.1 p (h1.2.1 p (Or.inl hp))
    have h3 : OpOK c w2 (w2.setCell p
        { w2.cell p with
          records := insertAt (w2.cell p).records i (splitW q (maxRecords / 2) w1).1.1,
          children := insertAt (w2.cell p).children (i + 1)
            (splitW q (maxRecords / 2) w1).1.2 }) :=
      opOK_setCell_keep hnp2 (by rfl)
    exact opOK_trans (opOK_trans h1 h2) h3

/-- `node.insert` in the heap is `OpOK` when the target node carries an
allowed stamp (any fuel). -/
theorem insertW_opOK {α : Type} [Inhabited α] {c : Nat} (lt : α → α → Bool) :
    ∀ (fuel : Nat) (p : Nat) (record : α) (maxRecords : Nat) (w : World α),
      StampOK (α := α) c ((w.cell p).cowCtx) →
      OpOK c w (insertW lt fuel p record maxRecords w).2 := by
  intro fuel
  induction fuel with
  | zero =>
    intro p record maxRecords w _
    rw [insertW]
    exact opOK_refl c w
  | succ fuel ih =>
    have hdesc : ∀ (p idx : Nat) (record : α) (maxRecords : Nat) (w : World α),
        StampOK (α := α) c ((w.cell p).cowCtx) →
        OpOK c w (insertDescendW lt fuel p idx record maxRecords w).2 := by
      intro p idx record maxRecords w hp
      unfold insertDescendW
      simp only []
      obtain ⟨h1, hst1⟩ := mutableChildW_opOK (w := w) p idx hp
      exact opOK_trans h1 (ih _ _ _ _ hst1)
    intro p record maxRecords w hp
    rw [insertW]
    simp only []
    by_cases hfound : (find lt (w.cell p).records record).2 = true
    · rw [if_pos hfound]
      exact opOK_setCell_keep (Or.inl hp) (by rfl)
    · rw [if_neg hfound]
      by_cases hleaf : (w.cell p).children.length = 0
      · rw [if_pos hleaf]
        exact opOK_setCell_keep (Or.inl hp) (by rfl)
      · rw [if_neg hleaf]
        have h1 : OpOK c w
            (maybeSplitChildW p (find lt (w.cell p).records record).1 maxRecords w).2 :=
          maybeSplitChildW_opOK p _ maxRecords hp
        set w1 := (maybeSplitChildW p (find lt (w.cell p).records record).1 maxRecords w).2
          with hw1
        have hp1 : StampOK (α := α) c ((w1.cell p).cowCtx) := h1.2.2 p hp
        by_cases hsplit : (maybeSplitChildW p (find lt (w.cell p).records record).1
            maxRecords w).1 = true
        · rw [if_pos hsplit]
          by_cases hlt1 : lt record ((w1.cell p).records.getD
              (find lt (w.cell p).records record).1 default) = true
          · rw [if_pos hlt1]
            exact opOK_trans h1 (hdesc _ _ _ _ _ hp1)
          · rw [if_neg hlt1]
            by_cases hlt2 : lt ((w1.cell p).records.getD
                (find lt (w.cell p).records record).1 default) record = true
            · rw [if_pos hlt2]
              exact opOK_trans h1 (hdesc _ _ _ _ _ hp1)
            · rw [if_neg hlt2]
              exact opOK_trans h1 (opOK_setCell_keep (Or.inl hp1) (by rfl))
        · rw [if_neg hsplit]
          exact opOK_trans h1 (hdesc _ _ _ _ _ hp1)

/-- `node.remove`, its internal-node tail, and `growChildAndRemove` in the
heap are all `OpOK` when the target node carries an allowed stamp (any
fuel). -/
theorem removeFamily_opOK {α : Type} [Inhabited α] {c : Nat} (lt : α → α → Bool) :
    ∀ (fuel : Nat),
      (∀ (p : Nat) (record : Option α) (minRecords : Nat) (typ : ToRemove)
        (w : World α), StampOK (α := α) c ((w.cell p).cowCtx) →
        OpOK c w (removeGoW lt fuel p record minRecords typ w).2)
      ∧ (∀ (p : Nat) (record : Option α) (minRecords : Nat) (typ : ToRemove)
        (targetIndex : Nat) (recordFound : Bool) (w : World α),
        StampOK (α := α) c ((w.cell p).cowCtx) →
        OpOK c w (removeStepW lt fuel p record minRecords typ targetIndex
          recordFound w).2)
      ∧ (∀ (p i : Nat) (record : Option α) (minRecords : Nat) (typ : ToRemove)
        (w : World α), StampOK (α := α) c ((w.cell p).cowCtx) →
        OpOK c w (growW lt fuel p i record minRecords typ w).2) := by
  intro fuel
  induction fuel with
  | zero =>
    refine ⟨?_, ?_, ?_⟩
    · intro p record minRecords typ w _
      rw [removeGoW.eq_def]
      exact opOK_refl c w
    · intro p record minRecords typ ti rf w _
      rw [removeStepW.eq_def]
      exact opOK_refl c w
    · intro p i record minRecords typ w _
      rw [growW.eq_def]
      exact opOK_refl c w
  | succ fuel ih =>
    obtain ⟨ihGo, ihStep, ihGrow⟩ := ih
    refine ⟨?_, ?_, ?_⟩
    · -- removeGoW (fuel+1)
      intro p record minRecords typ w hp
      rw [removeGoW.eq_def]
      simp only []
      cases typ with
      | removeMax =>
        simp only []
        by_cases hleaf : (w.cell p).children.length = 0
        · rw [if_pos hleaf]
          exact opOK_setCell_keep (Or.inl hp) (by rfl)
        · rw [if_neg hleaf]
          exact ihStep _ _ _ _ _ _ _ hp
      | removeMin =>
        simp only []
        by_cases hleaf : (w.cell p).children.length = 0
        · rw [if_pos hleaf]
          exact opOK_setCell_keep (Or.inl hp) (by rfl)
        · rw [if_neg hleaf]
          exact ihStep _ _ _ _ _ _ _ hp
      | removeRecord =>
        simp only []
        by_cases hleaf : (w.cell p).children.length = 0
        · rw [if_pos hleaf]
          by_cases hfound : (match record with
              | some r => find lt (w.cell p).records r
              | none => (0, false)).2 = true
          · rw [if_pos hfound]
            exact opOK_setCell_keep (Or.inl hp) (by rfl)
          · rw [if_neg hfound]
            exact opOK_refl c w
        · rw [if_neg hleaf]
          exact ihStep _ _ _ _ _ _ _ hp
    · -- removeStepW (fuel+1)
      intro p record minRecords typ targetIndex recordFound w hp
      rw [removeStepW.eq_def]
      simp only []
      by_cases hguard : (w.cell ((w.cell p).children.getD targetIndex 0)).records.length
          ≤ minRecords
      · rw [if_pos hguard]
        exact ihGrow _ _ _ _ _ _ hp
      · rw [if_neg hguard]
        obtain ⟨h1, hst1⟩ := mutableChildW_opOK (w := w) p targetIndex hp
        set q := (mutableChildW p targetIndex w).1 with hq
        set w1 := (mutableChildW p targetIndex w).2 with hw1
        have hp1 : StampOK (α := α) c ((w1.cell p).cowCtx) := h1.2.2 p hp
        by_cases hrf : recordFound = true
        · rw [if_pos hrf]
          have h2 : OpOK c w1 (removeGoW lt fuel q none minRecords .removeMax w1).2 :=
            ihGo _ _ _ _ _ hst1
          set w2 := (removeGoW lt fuel q none minRecords .removeMax w1).2 with hw2
          have hp2 : StampOK (α := α) c ((w2.cell p).cowCtx) := h2.2.2 p hp1
          cases hres : (removeGoW lt fuel q none minRecords .removeMax w1).1 with
          | some stolen =>
            exact opOK_trans (opOK_trans h1 h2)
              (opOK_setCell_keep (Or.inl hp2) (by rfl))
          | none =>
            exact opOK_trans h1 h2
        · rw [if_neg hrf]
          exact opOK_trans h1 (ihGo _ _ _ _ _ hst1)
    · -- growW (fuel+1)
      intro p i record minRecords typ w hp
      rw [growW.eq_def]
      simp only []
      by_cases hleft : i > 0 ∧ (w.cell ((w.cell p).children.getD (i - 1) 0)).records.length
          > minRecords
      · rw [if_pos hleft]
        obtain ⟨h1, hst1⟩ := mutableChildW_opOK (w := w) p i hp
        set child := (mutableChildW p i w).1 with hchild
        set wa := (mutableChildW p i w).2 with hwa
        have hpa : StampOK (α := α) c ((wa.cell p).cowCtx) := h1.2.2 p hp
        obtain ⟨h2, hst2⟩ := mutableChildW_opOK (w := wa) p (i - 1) hpa
        set stealFrom := (mutableChildW p (i - 1) wa).1 with hsf
        set w1 := (mutableChildW p (i - 1) wa).2 with hw1
        have hpb : StampOK (α := α) c ((w1.cell p).cowCtx) := h2.2.2 p hpa
        have hstc : StampOK (α := α) c ((w1.cell child).cowCtx) := h2.2.2 child hst1
        have h3 : OpOK c w1 (w1.setCell stealFrom
            { w1.cell stealFrom with records := (popLast (w1.cell stealFrom).records).2 }) :=
          opOK_setCell_keep (Or.inl hst2) (by rfl)
        set w2 := w1.setCell stealFrom
          { w1.cell stealFrom with records := (popLast (w1.cell stealFrom).records).2 }
          with hw2
        have h4 : OpOK c w2 (w2.setCell child
            { w2.cell child with
              records := insertAt (w2.cell child).records 0
                ((w2.cell p).records.getD (i - 1) default) }) :=
          opOK_setCell_keep (Or.inl (h3.2.2 child hstc)) (by rfl)
        set w3 := w2.setCell child
          { w2.cell child with
            records := insertAt (w2.cell child).records 0
              ((w2.cell p).records.getD (i - 1) default) }
          with hw3
        have h5 : OpOK c w3 (w3.setCell p
            { w3.cell p with
              records := (w3.cell p).records.set (i - 1)
                (popLast (w1.cell stealFrom).records).1 }) :=
          opOK_setCell_keep (Or.inl (h4.2.2 p (h3.2.2 p hpb))) (by rfl)
        set w4 := w3.setCell p
          { w3.cell p with
            records := (w3.cell p).records.set (i - 1)
              (popLast (w1.cell stealFrom).records).1 }
          with hw4
        have h15 : OpOK c w w4 :=
          opOK_trans (opOK_trans (opOK_trans (opOK_trans h1 h2) h3) h4) h5
        have hp4 : StampOK (α := α) c ((w4.cell p).cowCtx) := h15.2.2 p hp
        by_cases hmove : (w4.cell stealFrom).children.length > 0
        · rw [if_pos hmove]
          have hsf4 : StampOK (α := α) c ((w4.cell stealFrom).cowCtx) :=
            h5.2.2 stealFrom (h4.2.2 stealFrom (h3.2.2 stealFrom hst2))
          have h6 : OpOK c w4 (w4.setCell stealFrom
              { w4.cell stealFrom with
                children := (popLast (w4.cell stealFrom).children).2 }) :=
            opOK_setCell_keep (Or.inl hsf4) (by rfl)
          set w5 := w4.setCell stealFrom
            { w4.cell stealFrom with
              children := (popLast (w4.cell stealFrom).children).2 }
            with hw5
          have hc5 : StampOK (α := α) c ((w5.cell child).cowCtx) :=
            h6.2.2 child (h5.2.2 child (h4.2.2 child (h3.2.2 child hstc)))
          have h7 : OpOK c w5 (w5.setCell child
              { w5.cell child with
                children := insertAt (w5.cell child).children 0
                  (popLast (w4.cell stealFrom).children).1 }) :=
            opOK_setCell_keep (Or.inl hc5) (by rfl)
          set w6 := w5.setCell child
            { w5.cell child with
              children := insertAt (w5.cell child).children 0
                (popLast (w4.cell stealFrom).children).1 }
            with hw6
          have h16 : OpOK c w w6 := opOK_trans (opOK_trans h15 h6) h7
          exact opOK_trans h16 (ihGo _ _ _ _ _ (h16.2.2 p hp))
        · rw [if_neg hmove]
          exact opOK_trans h15 (ihGo _ _ _ _ _ hp4)
      · rw [if_neg hleft]
        by_cases hright : i < (w.cell p).records.length ∧
            (w.cell ((w.cell p).children.getD (i + 1) 0)).records.length > minRecords
        · rw [if_pos hright]
          obtain ⟨h1, hst1⟩ := mutableChildW_opOK (w := w) p i hp
          set child := (mutableChildW p i w).1 with hchild
          set wa := (mutableChildW p i w).2 with hwa
          have hpa : StampOK (α := α) c ((wa.cell p).cowCtx) := h1.2.2 p hp
          obtain ⟨h2, hst2⟩ := mutableChildW_opOK (w := wa) p (i + 1) hpa
          set stealFrom := (mutableChildW p (i + 1) wa).1 with hsf
          set w1 := (mutableChildW p (i + 1) wa).2 with hw1
          have hpb : StampOK (α := α) c ((w1.cell p).cowCtx) := h2.2.2 p hpa
          have hstc : StampOK (α := α) c ((w1.cell child).cowCtx) := h2.2.2 child hst1
          have h3 : OpOK c w1 (w1.setCell stealFrom
              { w1.cell stealFrom with
                records := (removeAt (w1.cell stealFrom).records 0).2 }) :=
            opOK_setCell_keep (Or.inl hst2) (by rfl)
          set w2 := w1.setCell stealFrom
            { w1.cell stealFrom with
              records := (removeAt (w1.cell stealFrom).records 0).2 }
            with hw2
          have h4 : OpOK c w2 (w2.setCell child
              { w2.cell child with
                records := (w2.cell child).records
                  ++ [(w2.cell p).records.getD i default] }) :=
            opOK_setCell_keep (Or.inl (h3.2.2 child hstc)) (by rfl)
          set w3 := w2.setCell child
            { w2.cell child with
              records := (w2.cell child).records
                ++ [(w2.cell p).records.getD i default] }
            with hw3
          have h5 : OpOK c w3 (w3.setCell p
              { w3.cell p with
                records := (w3.cell p).records.set i
                  (removeAt (w1.cell stealFrom).records 0).1 }) :=
            opOK_setCell_keep (Or.inl (h4.2.2 p (h3.2.2 p hpb))) (by rfl)
          set w4 := w3.setCell p
            { w3.cell p with
              records := (w3.cell p).records.set i
                (removeAt (w1.cell stealFrom).records 0).1 }
            with hw4
          have h15 : OpOK c w w4 :=
            opOK_trans (opOK_trans (opOK_trans (opOK_trans h1 h2) h3) h4) h5
          have hp4 : StampOK (α := α) c ((w4.cell p).cowCtx) := h15.2.2 p hp
          by_cases hmove : (w4.cell stealFrom).children.length > 0
          · rw [if_pos hmove]
            have hsf4 : StampOK (α := α) c ((w4.cell stealFrom).cowCtx) :=
              h5.2.2 stealFrom (h4.2.2 stealFrom (h3.2.2 stealFrom hst2))
            have h6 : OpOK c w4 (w4.setCell stealFrom
                { w4.cell stealFrom with
                  children := (removeAt (w4.cell stealFrom).children 0).2 }) :=
              opOK_setCell_keep (Or.inl hsf4) (by rfl)
            set w5 := w4.setCell stealFrom
              { w4.cell stealFrom with
                children := (removeAt (w4.cell stealFrom).children 0).2 }
              with hw5
            have hc5 : StampOK (α := α) c ((w5.cell child).cowCtx) :=
              h6.2.2 child (h5.2.2 child (h4.2.2 child (h3.2.2 child hstc)))
            have h7 : OpOK c w5 (w5.setCell child
                { w5.cell child with
                  children := (w5.cell child).children
                    ++ [(removeAt (w4.cell stealFrom).children 0).1] }) :=
              opOK_setCell_keep (Or.inl hc5) (by rfl)
            set w6 := w5.setCell child
              { w5.cell child with
                children := (w5.cell child).children
                  ++ [(removeAt (w4.cell stealFrom).children 0).1] }
              with hw6
            have h16 : OpOK c w w6 := opOK_trans (opOK_trans h15 h6) h7
            exact opOK_trans h16 (ihGo _ _ _ _ _ (h16.2.2 p hp))
          · rw [if_neg hmove]
            exact opOK_trans h15 (ihGo _ _ _ _ _ hp4)
        · rw [if_neg hright]
          -- merge with right sibling
          obtain ⟨h1, hst1⟩ := mutableChildW_opOK (w := w) p
            (if i ≥ (w.cell p).records.length then i - 1 else i) hp
          set i' := if i ≥ (w.cell p).records.length then i - 1 else i with hi'
          set child := (mutableChildW p i' w).1 with hchild
          set w1 := (mutableChildW p i' w).2 with hw1
          have hpb : StampOK (α := α) c ((w1.cell p).cowCtx) := h1.2.2 p hp
          have h2 : OpOK c w1 (w1.setCell p
              { w1.cell p with
                records := (removeAt (w1.cell p).records i').2,
                children := (removeAt (w1.cell p).children (i' + 1)).2 }) :=
            opOK_setCell_keep (Or.inl hpb) (by rfl)
          set w2 := w1.setCell p
            { w1.cell p with
              records := (removeAt (w1.cell p).records i').2,
              children := (removeAt (w1.cell p).children (i' + 1)).2 }
            with hw2
          have hpc : StampOK (α := α) c ((w2.cell p).cowCtx) := h2.2.2 p hpb
          obtain ⟨h3, hnp3, hst3⟩ := @mutableForW_opOK _ c ((w2.cell p).cowCtx) w2
            (removeAt (w1.cell p).children (i' + 1)).1 hpc
          set mc := (mutableForW (w2.cell p).cowCtx
            (removeAt (w1.cell p).children (i' + 1)).1 w2).1 with hmc
          set w3 := (mutableForW (w2.cell p).cowCtx
            (removeAt (w1.cell p).children (i' + 1)).1 w2).2 with hw3
          have hc3 : StampOK (α := α) c ((w3.cell child).cowCtx) :=
            h3.2.2 child (h2.2.2 child hst1)
          have h4 : OpOK c w3 (w3.setCell child
              { w3.cell child with
                records := (w3.cell child).records
                  ++ (removeAt (w1.cell p).records i').1 :: (w3.cell mc).records,
                children := (w3.cell child).children ++ (w3.cell mc).children }) :=
            opOK_setCell_keep (Or.inl hc3) (by rfl)
          set w4 := w3.setCell child
            { w3.cell child with
              records := (w3.cell child).records
                ++ (removeAt (w1.cell p).records i').1 :: (w3.cell mc).records,
              children := (w3.cell child).children ++ (w3.cell mc).children }
            with hw4
          have h14 : OpOK c w w4 := opOK_trans (opOK_trans (opOK_trans h1 h2) h3) h4
          have hp4 : StampOK (α := α) c ((w4.cell p).cowCtx) := h14.2.2 p hp
          have h5 : OpOK c w4 (cowFreeNode ((w4.cell p).cowCtx) mc w4).2 :=
            cowFreeNode_opOK mc hp4
          have h15 : OpOK c w (cowFreeNode ((w4.cell p).cowCtx) mc w4).2 :=
            opOK_trans h14 h5
          exact opOK_trans h15 (ihGo _ _ _ _ _ (h15.2.2 p hp))

set_option maxHeartbeats 1000000 in
/-- `BTree.Insert` in the heap is `OpOK` for the inserting tree's context,
and leaves the tree's context identity unchanged. -/
theorem hInsert_opOK {α : Type} [Inhabited α] (lt : α → α → Bool) (t : HTree)
    (record : α) (w : World α) :
    OpOK t.ctx w (hInsert lt t record w).2.2
    ∧ (hInsert lt t record w).2.1.ctx = t.ctx := by
  unfold hInsert
  match hroot : t.root with
  | none =>
    simp only []
    obtain ⟨h1, hnp, _⟩ := @cowNewNode_opOK _ t.ctx (some t.ctx) w (Or.inl rfl)
    exact ⟨opOK_trans h1 (opOK_setCell_keep hnp (by rfl)), trivial⟩
  | some root =>
    simp only []
    obtain ⟨h1, hnp1, hst1⟩ := @mutableForW_opOK _ t.ctx (some t.ctx) w root (Or.inl rfl)
    set root1 := (mutableForW (some t.ctx) root w).1 with hroot1
    set w1 := (mutableForW (some t.ctx) root w).2 with hw1
    by_cases hfull : (w1.cell root1).records.length ≥ t.maxRecords
    · rw [if_pos hfull]
      simp only []
      have h2 : OpOK t.ctx w1 (splitW root1 (t.maxRecords / 2) w1).2 :=
        splitW_opOK root1 _ hst1
      set w2 := (splitW root1 (t.maxRecords / 2) w1).2 with hw2
      obtain ⟨h3, hnp3, hst3⟩ := @cowNewNode_opOK _ t.ctx (some t.ctx) w2 (Or.inl rfl)
      set q := (cowNewNode (some t.ctx) w2).1 with hq
      set w3 := (cowNewNode (some t.ctx) w2).2 with hw3
      have h4 : OpOK t.ctx w3 (w3.setCell q
          { w3.cell q with
            records := (w3.cell q).records ++ [(splitW root1 (t.maxRecords / 2) w1).1.1],
            children := (w3.cell q).children
              ++ [root1, (splitW root1 (t.maxRecords / 2) w1).1.2] }) :=
        opOK_setCell_keep hnp3 (by rfl)
      set w4 := w3.setCell q
        { w3.cell q with
          records := (w3.cell q).records ++ [(splitW root1 (t.maxRecords / 2) w1).1.1],
          children := (w3.cell q).children
            ++ [root1, (splitW root1 (t.maxRecords / 2) w1).1.2] }
        with hw4
      have hstq : StampOK (α := α) t.ctx ((w4.cell q).cowCtx) := h4.2.2 q hst3
      have h14 : OpOK t.ctx w w4 :=
        opOK_trans (opOK_trans (opOK_trans h1 h2) h3) h4
      have h5 : OpOK t.ctx w4
          (insertW lt (w4.heap.length + 1) q record t.maxRecords w4).2 :=
        insertW_opOK lt _ q record t.maxRecords w4 hstq
      have hall : OpOK t.ctx w
          (insertW lt (w4.heap.length + 1) q record t.maxRecords w4).2 :=
        opOK_trans h14 h5
      cases hres : (insertW lt (w4.heap.length + 1) q record t.maxRecords w4).1 with
      | none => exact ⟨hall, rfl⟩
      | some old => exact ⟨hall, rfl⟩
    · rw [if_neg hfull]
      simp only []
      have h2 : OpOK t.ctx w1
          (insertW lt (w1.heap.length + 1) root1 record t.maxRecords w1).2 :=
        insertW_opOK lt _ root1 record t.maxRecords w1 hst1
      have hall : OpOK t.ctx w
          (insertW lt (w1.heap.length + 1) root1 record t.maxRecords w1).2 :=
        opOK_trans h1 h2
      cases hres : (insertW lt (w1.heap.length + 1) root1 record t.maxRecords w1).1 with
      | none => exact ⟨hall, rfl⟩
      | some old => exact ⟨hall, rfl⟩

set_option maxHeartbeats 1000000 in
/-- `BTree.deleteRecord` in the heap is `OpOK` for the deleting tree's
context, and leaves the tree's context identity unchanged. -/
theorem hDelete_opOK {α : Type} [Inhabited α] (lt : α → α → Bool) (t : HTree)
    (record : Option α) (typ : ToRemove) (w : World α) :
    OpOK t.ctx w (hDelete lt t record typ w).2.2
    ∧ (hDelete lt t record typ w).2.1.ctx = t.ctx := by
  unfold hDelete
  match hroot : t.root with
  | none => exact ⟨opOK_refl _ w, rfl⟩
  | some root =>
    simp only []
    by_cases hempty : (w.cell root).records.length = 0
    · rw [if_pos hempty]
      exact ⟨opOK_refl _ w, rfl⟩
    · rw [if_neg hempty]
      obtain ⟨h1, hnp1, hst1⟩ := @mutableForW_opOK _ t.ctx (some t.ctx) w root (Or.inl rfl)
      set root1 := (mutableForW (some t.ctx) root w).1 with hroot1
      set w1 := (mutableForW (some t.ctx) root w).2 with hw1
      have h2 : OpOK t.ctx w1
          (removeGoW lt (w1.heap.length * 5 + 5) root1 record t.minRecords typ w1).2 :=
        (removeFamily_opOK lt _).1 root1 record t.minRecords typ w1 hst1
      set w2 := (removeGoW lt (w1.heap.length * 5 + 5) root1 record t.minRecords typ w1).2
        with hw2
      have h12 : OpOK t.ctx w w2 := opOK_trans h1 h2
      by_cases hcol : (w2.cell root1).records.length = 0
          ∧ (w2.cell root1).children.length > 0
      · rw [if_pos hcol]
        simp only []
        have h3 : OpOK t.ctx w2 (cowFreeNode (some t.ctx) root1 w2).2 :=
          cowFreeNode_opOK root1 (Or.inl rfl)
        have hall : OpOK t.ctx w (cowFreeNode (some t.ctx) root1 w2).2 :=
          opOK_trans h12 h3
        cases hres : (removeGoW lt (w1.heap.length * 5 + 5) root1 record
            t.minRecords typ w1).1 with
        | none => exact ⟨hall, rfl⟩
        | some removed => exact ⟨hall, rfl⟩
      · rw [if_neg hcol]
        cases hres : (removeGoW lt (w1.heap.length * 5 + 5) root1 record
            t.minRecords typ w1).1 with
        | none => exact ⟨h12, rfl⟩
        | some removed => exact ⟨h12, rfl⟩

/-- One mutation is `OpOK` for the mutating tree's context and preserves the
tree's context identity. -/
theorem applyOp_opOK {α : Type} [Inhabited α] (lt : α → α → Bool) (op : HOp α)
    (t : HTree) (w : World α) :
    OpOK t.ctx w (applyOp lt op t w).2 ∧ (applyOp lt op t w).1.ctx = t.ctx := by
  cases op with
  | insert r => exact ⟨(hInsert_opOK lt t r w).1, (hInsert_opOK lt t r w).2⟩
  | delete r =>
    exact ⟨(hDelete_opOK lt t (some r) .removeRecord w).1,
      (hDelete_opOK lt t (some r) .removeRecord w).2⟩
  | deleteMin =>
    exact ⟨(hDelete_opOK lt t none .removeMin w).1,
      (hDelete_opOK lt t none .removeMin w).2⟩
  | deleteMax =>
    exact ⟨(hDelete_opOK lt t none .removeMax w).1,
      (hDelete_opOK lt t none .removeMax w).2⟩

/-- A whole mutation sequence is `OpOK` for the mutated tree's context. -/
theorem applyOps_opOK {α : Type} [Inhabited α] (lt : α → α → Bool)
    (ops : List (HOp α)) :
    ∀ (t : HTree) (w : World α),
      OpOK t.ctx w (applyOps lt ops t w).2 := by
  induction ops with
  | nil =>
    intro t w
    rw [applyOps]
    exact opOK_refl _ w
  | cons op rest ih =>
    intro t w
    rw [applyOps]
    obtain ⟨h1, hctx⟩ := applyOp_opOK lt op t w
    have h2 := ih (applyOp lt op t w).1 (applyOp lt op t w).2
    rw [hctx] at h2
    exact opOK_trans h1 h2

/-- The cells a context-`c` mutation must not touch, along the subtree at
`p` down to depth `fuel`. -/
def SafeF {α : Type} (c : Nat) : Nat → World α → Nat → Prop
  | 0, _, _ => True
  | fuel + 1, w, p =>
    ¬ NonProt c w p ∧ ∀ q ∈ (w.cell p).children, SafeF c fuel w q

/-- A live subtree: allocated cells, off the free list, each with a (non-nil)
owner — true of everything reachable from a live root. -/
def LiveF {α : Type} : Nat → World α → Nat → Prop
  | 0, _, _ => True
  | fuel + 1, w, p =>
    p < w.heap.length ∧ p ∉ w.free ∧ (w.cell p).cowCtx ≠ none
    ∧ ∀ q ∈ (w.cell p).children, LiveF fuel w q

theorem readTree_congr {α : Type} {w w' : World α}
    (h : ∀ q, w'.cell q = w.cell q) :
    ∀ (fuel : Nat) (p : Nat), readTree fuel w' p = readTree fuel w p := by
  intro fuel
  induction fuel with
  | zero =>
    intro p
    rfl
  | succ fuel ih =>
    intro p
    rw [readTree, readTree, h p]
    congr 1
    exact List.map_congr_left (fun q _ => ih q)

theorem liveF_congr {α : Type} {w w' : World α}
    (hc : ∀ q, w'.cell q = w.cell q) (hf : w'.free = w.free)
    (hl : w'.heap.length = w.heap.length) :
    ∀ (fuel : Nat) (p : Nat), LiveF fuel w p → LiveF fuel w' p := by
  intro fuel
  induction fuel with
  | zero =>
    intro p _
    trivial
  | succ fuel ih =>
    intro p hp
    obtain ⟨h1, h2, h3, h4⟩ := hp
    refine ⟨by omega, by rw [hf]; exact h2, by rw [hc]; exact h3, ?_⟩
    intro q hq
    rw [hc] at hq
    exact ih q (h4 q hq)

/-- Protected subtrees survive an `OpOK` mutation untouched: still safe, and
reading them back yields the same functional tree. -/
theorem safeF_opOK {α : Type} {c : Nat} {w w' : World α} (hop : OpOK c w w') :
    ∀ (fuel : Nat) (p : Nat), SafeF c fuel w p →
      SafeF c fuel w' p ∧ readTree fuel w' p = readTree fuel w p := by
  intro fuel
  induction fuel with
  | zero =>
    intro p _
    exact ⟨trivial, rfl⟩
  | succ fuel ih =>
    intro p hp
    obtain ⟨hnp, hch⟩ := hp
    obtain ⟨hcell, hfree⟩ := hop.1.2.2.2 p hnp
    have hnp' : ¬ NonProt c w' p := by
      intro hx
      rcases hx with hx' | hx' | hx'
      · rw [hcell] at hx'
        exact hnp (Or.inl hx')
      · exact hfree hx'
      · have hlt := not_nonProt_lt hnp
        have := hop.1.1
        omega
    refine ⟨⟨hnp', ?_⟩, ?_⟩
    · intro q hq
      rw [hcell] at hq
      exact (ih q (hch q hq)).1
    · rw [readTree, readTree, hcell]
      congr 1
      exact List.map_congr_left (fun q hq => (ih q (hch q hq)).2)

/-- Contexts below a bound never collide with a context at or above it. -/
theorem liveF_safeF {α : Type} {w : World α} {b c : Nat} (hb : b ≤ c)
    (hcells : ∀ q c'', (w.cell q).cowCtx = some c'' → c'' < b) :
    ∀ (fuel : Nat) (p : Nat), LiveF fuel w p → SafeF c fuel w p := by
  intro fuel
  induction fuel with
  | zero =>
    intro p _
    trivial
  | succ fuel ih =>
    intro p hp
    obtain ⟨h1, h2, h3, h4⟩ := hp
    refine ⟨?_, fun q hq => ih q (h4 q hq)⟩
    intro hx
    rcases hx with hx' | hx' | hx'
    · rcases hx' with hx'' | hx''
      · have := hcells p c hx''
        omega
      · exact h3 hx''
    · exact h2 hx'
    · omega

/-- **C1**: given a tree `T` in a well-formed world (allocated contexts are
below the context counter, and `T`'s subtree is live and of bounded depth),
clone it: `T1, T2 := Clone(T)`.  Applying any sequence of
`Insert`/`Delete`/`DeleteMin`/`DeleteMax` mutations to `T2` leaves both
`T1.Len()` and the sequence of records `T1.Ascend` visits exactly as they
were for `T`; symmetrically, mutating `T1` leaves `T2`'s view unchanged. -/
theorem clone_isolation {α : Type} [Inhabited α] (lt : α → α → Bool)
    (t : HTree) (w : World α)
    (hbound : ∀ q c'', ((w.cell q).cowCtx = some c'') → c'' < w.ctxNext)
    (hlive : ∀ r, t.root = some r → ∀ fuel, LiveF fuel w r)
    (hstable : ∀ r, t.root = some r → ∀ fuel, w.heap.length ≤ fuel →
      readTree fuel w r = readTree w.heap.length w r)
    (ops1 ops2 : List (HOp α)) :
    (hAscendList lt (hClone t w).1
        (applyOps lt ops2 (hClone t w).2.1 (hClone t w).2.2).2
      = hAscendList lt t w
      ∧ (hClone t w).1.Len = t.Len)
    ∧ (hAscendList lt (hClone t w).2.1
        (applyOps lt ops1 (hClone t w).1 (hClone t w).2.2).2
      = hAscendList lt t w
      ∧ (hClone t w).2.1.Len = t.Len) := by
  have hmain : ∀ (tm : HTree) (c : Nat), tm.ctx = c → w.ctxNext ≤ c →
      ∀ (ops : List (HOp α)),
      t.root.map (readTree (applyOps lt ops tm (hClone t w).2.2).2.heap.length
          (applyOps lt ops tm (hClone t w).2.2).2)
        = t.root.map (readTree w.heap.length w) := by
    intro tm c htm hc ops
    set w1 := (hClone t w).2.2 with hw1
    have hcongr1 : ∀ q, w1.cell q = w.cell q := fun _ => rfl
    have hop : OpOK c w1 (applyOps lt ops tm w1).2 := by
      have := applyOps_opOK lt ops tm w1
      rw [htm] at this
      exact this
    set w2 := (applyOps lt ops tm w1).2 with hw2
    cases hroot : t.root with
    | none => rfl
    | some r =>
      have hsafe1 : ∀ fuel, SafeF c fuel w1 r := by
        intro fuel
        apply liveF_safeF (b := w.ctxNext) hc
        · intro q c'' hq
          rw [hcongr1] at hq
          exact hbound q c'' hq
        · exact liveF_congr hcongr1 rfl rfl fuel r (hlive r hroot fuel)
      have hlen12 : w1.heap.length ≤ w2.heap.length := hop.1.1
      have hlen1 : w1.heap.length = w.heap.length := rfl
      rw [Option.map_some', Option.map_some']
      congr 1
      calc readTree w2.heap.length w2 r
          = readTree w2.heap.length w1 r :=
            (safeF_opOK hop w2.heap.length r (hsafe1 _)).2
        _ = readTree w2.heap.length w r := readTree_congr hcongr1 _ r
        _ = readTree w.heap.length w r :=
            hstable r hroot w2.heap.length (by omega)
  constructor
  · refine ⟨?_, rfl⟩
    have h := hmain (hClone t w).2.1 (w.ctxNext + 1) rfl (by omega) ops2
    show BTree.ascendList lt
        { degree := t.degree, length := t.length,
          root := t.root.map (readTree
            (applyOps lt ops2 (hClone t w).2.1 (hClone t w).2.2).2.heap.length
            (applyOps lt ops2 (hClone t w).2.1 (hClone t w).2.2).2) }
      = BTree.ascendList lt
        { degree := t.degree, length := t.length,
          root := t.root.map (readTree w.heap.length w) }
    rw [h]
  · refine ⟨?_, rfl⟩
    have h := hmain (hClone t w).1 w.ctxNext rfl (by omega) ops1
    show BTree.ascendList lt
        { degree := t.degree, length := t.length,
          root := t.root.map (readTree
            (applyOps lt ops1 (hClone t w).1 (hClone t w).2.2).2.heap.length
            (applyOps lt ops1 (hClone t w).1 (hClone t w).2.2).2) }
      = BTree.ascendList lt
        { degree := t.degree, length := t.length,
          root := t.root.map (readTree w.heap.length w) }
    rw [h]

/-- A one-record world (a single allocated root cell owned by context 0)
used by the C1 witness. -/
def wC1 : World Nat := ⟨[⟨[7], [], some 0⟩], [], 32, 1⟩

/-- The tree living in `wC1`. -/
def tC1 : HTree := ⟨2, 1, some 0, 0⟩

/-- Closed witness for C1: clone the one-record tree, insert into the clone
and delete from the original; each keeps the other's `Ascend` output and
`Len` at the original values. -/
theorem clone_isolation_witness :
    (∀ q c'', ((wC1.cell q).cowCtx = some c'') → c'' < wC1.ctxNext)
    ∧ (∀ r, tC1.root = some r → ∀ fuel, LiveF fuel wC1 r)
    ∧ (∀ r, tC1.root = some r → ∀ fuel, wC1.heap.length ≤ fuel →
        readTree fuel wC1 r = readTree wC1.heap.length wC1 r)
    ∧ ((hAscendList natLt (hClone tC1 wC1).1
          (applyOps natLt [HOp.insert 9] (hClone tC1 wC1).2.1 (hClone tC1 wC1).2.2).2
        = hAscendList natLt tC1 wC1
        ∧ (hClone tC1 wC1).1.Len = tC1.Len)
      ∧ (hAscendList natLt (hClone tC1 wC1).2.1
          (applyOps natLt [HOp.deleteMin] (hClone tC1 wC1).1 (hClone tC1 wC1).2.2).2
        = hAscendList natLt tC1 wC1
        ∧ (hClone tC1 wC1).2.1.Len = tC1.Len)) := by
  have hbound : ∀ q c'', ((wC1.cell q).cowCtx = some c'') → c'' < wC1.ctxNext := by
    intro q c'' hq
    match q with
    | 0 =>
      have : (wC1.cell 0).cowCtx = some 0 := rfl
      rw [this] at hq
      cases hq
      decide
    | Nat.succ n =>
      have : wC1.cell (n + 1) = emptyHNode := by
        unfold World.cell
        exact List.getD_eq_default _ _ (by simp [wC1])
      rw [this] at hq
      cases hq
  have hlive : ∀ r, tC1.root = some r → ∀ fuel, LiveF fuel wC1 r := by
    intro r hr fuel
    cases hr
    induction fuel with
    | zero => trivial
    | succ n _ =>
      refine ⟨by decide, by decide, by decide, ?_⟩
      intro q hq
      have : (wC1.cell 0).children = [] := rfl
      rw [this] at hq
      cases hq
  have hstable : ∀ r, tC1.root = some r → ∀ fuel, wC1.heap.length ≤ fuel →
      readTree fuel wC1 r = readTree wC1.heap.length wC1 r := by
    intro r hr fuel hf
    cases hr
    match fuel, hf with
    | n + 1, _ => rfl
  exact ⟨hbound, hlive, hstable,
    clone_isolation natLt tC1 wC1 hbound hlive hstable [HOp.deleteMin] [HOp.insert 9]⟩

end GnoBtree
